import Mathlib

/-!
# To-Do list manager (`src/todo.c`): task store and persistence

A shallow embedding of the C program.

* The global array `tasks[MAX_TASKS]` is a map from slot index to `Task`, and
  `taskCount` is the number of live slots; the store the user sees is the
  prefix `tasks[0 .. taskCount)` (`State.view`).
* A C `char` is a `Char`, a C string is a `List Char` without the terminator;
  `cstr` cuts a buffer at its first NUL, as every `<string.h>` function does.
* A C `int` is an `Int`; the two places that compute one (`id + 1` in
  `addTask`, `%d` in `sscanf`) reduce the result to 32 bits with `wrapInt`.
* `stdin` and the tasks file are the list of characters still to be read.
* What the program prints as the outcome of an operation is a `Msg`.
-/

namespace Todo

/-! ## Constants and data -/

/-- `#define MAX_TASK_LEN 256`: size of a description buffer. -/
abbrev MAX_TASK_LEN : Nat := 256

/-- `#define MAX_TASKS 100`: number of slots of the global array. -/
abbrev MAX_TASKS : Nat := 100

/-- `typedef struct { int id; char description[MAX_TASK_LEN]; bool completed; } Task;` -/
structure Task where
  id : Int
  description : List Char
  completed : Bool
deriving DecidableEq, Repr

/-- The globals `Task tasks[MAX_TASKS]; int taskCount;`. -/
structure State where
  tasks : Nat → Task
  taskCount : Nat

/-- The store as the user sees it: the slots below `taskCount`, in order. -/
def State.view (s : State) : List Task :=
  (List.range s.taskCount).map s.tasks

/-- The ids of the live tasks, in order. -/
def State.ids (s : State) : List Int :=
  s.view.map Task.id

/-- The state at program start: `taskCount = 0`, every slot zero-initialised. -/
def State.init : State :=
  { tasks := fun _ => { id := 0, description := [], completed := false }, taskCount := 0 }

/-- The outcome messages the program prints (the text after the colour code). -/
inductive Msg where
  /-- "Task list is full. Cannot add more tasks." -/
  | listFull
  /-- "Error reading task description." -/
  | readError
  /-- "Task description cannot be empty. Task not added." -/
  | emptyDescription
  /-- "Task added successfully! (ID: %d)" -/
  | added (id : Int)
  /-- "No tasks to mark complete. Add tasks first!" -/
  | noTasksToComplete
  /-- "Invalid input. Please enter a number." -/
  | invalidInput
  /-- "Task ID %d marked as complete." -/
  | markedComplete (id : Int)
  /-- "Task with ID %d not found." -/
  | notFound (id : Int)
  /-- "No tasks to delete." -/
  | noTasksToDelete
  /-- "Task ID %d deleted successfully." -/
  | deleted (id : Int)
  /-- "Error: Could not open file for writing tasks." -/
  | saveOpenError
  /-- "No existing tasks file found. Starting with an empty list." -/
  | noFile
  /-- "Warning: Skipping malformed line in tasks file: %s" -/
  | malformedLine (line : List Char)
  /-- "Loaded %d tasks from %s." -/
  | loaded (count : Nat)
deriving DecidableEq, Repr

/-! ## The C library functions the program calls -/

/-- The string terminator. -/
def NUL : Char := Char.ofNat 0

/-- The C string held in a buffer: the characters before the first NUL. -/
def cstr (buf : List Char) : List Char :=
  buf.takeWhile (fun c => c != NUL)

/-- Two's-complement reduction of an integer to the range of a 32-bit `int`. -/
def wrapInt (x : Int) : Int :=
  (x + 2147483648) % 4294967296 - 2147483648

/-- The characters `fgets` stores when it may store at most `k` of them: it
stops after a newline, at end of input, or when `k` characters are stored.
Returns the characters stored and the rest of the stream. -/
def fgetsAux : Nat → List Char → List Char × List Char
  | 0, s => ([], s)
  | _ + 1, [] => ([], [])
  | k + 1, c :: s =>
    if c = '\n' then ([c], s)
    else (c :: (fgetsAux k s).1, (fgetsAux k s).2)

/-- `fgets(buf, n, stream)`: `none` is the `NULL` returned at end of input
when no character was read; otherwise at most `n - 1` characters are stored. -/
def fgets (n : Nat) (stream : List Char) : Option (List Char × List Char) :=
  match stream with
  | [] => none
  | _ :: _ => some (fgetsAux (n - 1) stream)

/-- `s[strcspn(s, "\n")] = 0` applied to the string of a buffer: the
characters before the first newline. -/
def stripNewline (buf : List Char) : List Char :=
  (cstr buf).takeWhile (fun c => c != '\n')

/-- `isspace` in the C locale. -/
def isspace (c : Char) : Bool :=
  c = ' ' || c = '\t' || c = '\n' || c = Char.ofNat 11 || c = Char.ofNat 12 || c = '\r'

/-- The value of a run of decimal digits, most significant first. -/
def digitsValue (ds : List Char) : Nat :=
  ds.foldl (fun acc c => acc * 10 + (c.toNat - 48)) 0

/-- The `%d` directive of `scanf`: skips white space, takes an optional sign
and the longest run of digits; a matching failure (`none`) when there is no
digit. Returns the converted `int` and the unread input. -/
def scanInt (s : List Char) : Option (Int × List Char) :=
  let s1 := s.dropWhile isspace
  let signed : Bool × List Char :=
    match s1 with
    | [] => (false, s1)
    | c :: r => if c = '-' then (true, r) else if c = '+' then (false, r) else (false, s1)
  let ds := signed.2.takeWhile Char.isDigit
  if ds = [] then none
  else
    let v : Int := digitsValue ds
    some (wrapInt (if signed.1 then -v else v), signed.2.dropWhile Char.isDigit)

/-- An ordinary character in a `scanf` format: the next input character has
to be that character. -/
def scanChar (c : Char) (s : List Char) : Option (List Char) :=
  match s with
  | [] => none
  | d :: r => if d = c then some r else none

/-- The `%[^\n]` directive: the longest non-empty run of characters other
than newline; a matching failure when that run is empty. -/
def scanNotNewline (s : List Char) : Option (List Char × List Char) :=
  let m := s.takeWhile (fun c => c != '\n')
  if m = [] then none else some (m, s.dropWhile (fun c => c != '\n'))

/-- `sscanf(line, "%d,%d,%[^\n]", &id, &completedStatus, description)`:
`some (id, completedStatus, description)` when the call returns 3, `none`
when it returns anything else. -/
def sscanfRecord (line : List Char) : Option (Int × Int × List Char) :=
  match scanInt line with
  | none => none
  | some (id, r1) =>
    match scanChar ',' r1 with
    | none => none
    | some r2 =>
      match scanInt r2 with
      | none => none
      | some (completedStatus, r3) =>
        match scanChar ',' r3 with
        | none => none
        | some r4 =>
          match scanNotNewline r4 with
          | none => none
          | some (description, _) => some (id, completedStatus, description)

/-- The decimal digit `d` (for `d < 10`) as a character. -/
def digitChar (d : Nat) : Char := Char.ofNat (48 + d)

/-- Decimal digits of a natural number, most significant first; `fuel`
bounds the number of digits. -/
def natDigits : Nat → Nat → List Char
  | 0, _ => []
  | fuel + 1, n =>
    if n < 10 then [digitChar n]
    else natDigits fuel (n / 10) ++ [digitChar (n % 10)]

/-- What `printf("%d", i)` prints. -/
def printInt (i : Int) : List Char :=
  match i with
  | Int.ofNat n => natDigits (n + 1) n
  | Int.negSucc n => '-' :: natDigits (n + 2) (n + 1)

/-! ## The operations of `todo.c` -/

/-- `addTask()`, given the characters waiting on `stdin`. `fgets` writes
into the description of slot `taskCount` before the line is validated, so a
rejected empty line still changes that (dead) slot. -/
def addTask (s : State) (stdin : List Char) : State × Msg :=
  if s.taskCount ≥ MAX_TASKS then (s, Msg.listFull)
  else
    match fgets MAX_TASK_LEN stdin with
    | none => (s, Msg.readError)
    | some (buf, _) =>
      let description := stripNewline buf
      if description.length = 0 then
        ({ s with tasks := Function.update s.tasks s.taskCount
                    { s.tasks s.taskCount with description := description } },
          Msg.emptyDescription)
      else
        let id : Int :=
          if s.taskCount > 0 then wrapInt ((s.tasks (s.taskCount - 1)).id + 1) else 1
        ({ tasks := Function.update s.tasks s.taskCount
                      { id := id, description := description, completed := false },
           taskCount := s.taskCount + 1 },
          Msg.added id)

/-- The search loop of `markTaskComplete()` from slot `i` with `k` slots left
to visit: the array after the first match is marked, `none` when no slot
matches (`found == false`). -/
def markLoop (tasks : Nat → Task) (taskId : Int) : Nat → Nat → Option (Nat → Task)
  | _, 0 => none
  | i, k + 1 =>
    if (tasks i).id = taskId then
      some (Function.update tasks i { tasks i with completed := true })
    else markLoop tasks taskId (i + 1) k

/-- `markTaskComplete()`; `input` is what `scanf("%d", &taskId)` reads
(`none` when it does not return 1). -/
def markTaskComplete (s : State) (input : Option Int) : State × Msg :=
  if s.taskCount = 0 then (s, Msg.noTasksToComplete)
  else
    match input with
    | none => (s, Msg.invalidInput)
    | some taskId =>
      match markLoop s.tasks taskId 0 s.taskCount with
      | some tasks => ({ s with tasks := tasks }, Msg.markedComplete taskId)
      | none => (s, Msg.notFound taskId)

/-- The search loop of `deleteTask()` from slot `i` with `k` slots left to
visit: `foundIndex`, `none` standing for `-1`. -/
def findLoop (tasks : Nat → Task) (taskId : Int) : Nat → Nat → Option Nat
  | _, 0 => none
  | i, k + 1 => if (tasks i).id = taskId then some i else findLoop tasks taskId (i + 1) k

/-- The shifting loop of `deleteTask()`: `tasks[i] = tasks[i + 1]` from slot
`i`, `k` times. -/
def shiftLoop : (Nat → Task) → Nat → Nat → (Nat → Task)
  | tasks, _, 0 => tasks
  | tasks, i, k + 1 => shiftLoop (Function.update tasks i (tasks (i + 1))) (i + 1) k

/-- `deleteTask()`; `input` is what `scanf("%d", &taskId)` reads. -/
def deleteTask (s : State) (input : Option Int) : State × Msg :=
  if s.taskCount = 0 then (s, Msg.noTasksToDelete)
  else
    match input with
    | none => (s, Msg.invalidInput)
    | some taskId =>
      match findLoop s.tasks taskId 0 s.taskCount with
      | some foundIndex =>
        ({ tasks := shiftLoop s.tasks foundIndex (s.taskCount - 1 - foundIndex),
           taskCount := s.taskCount - 1 },
          Msg.deleted taskId)
      | none => (s, Msg.notFound taskId)

/-- What `fprintf(file, "%d,%d,%s\n", id, completed ? 1 : 0, description)` writes. -/
def formatRecord (t : Task) : List Char :=
  printInt t.id ++ ',' :: printInt (if t.completed then 1 else 0) ++ ',' :: t.description
    ++ ['\n']

/-- The loop of `saveTasks()` from slot `i` with `k` slots left to write. -/
def saveLoop (tasks : Nat → Task) : Nat → Nat → List Char
  | _, 0 => []
  | i, k + 1 => formatRecord (tasks i) ++ saveLoop tasks (i + 1) k

/-- The text `saveTasks()` writes once the file is open. -/
def saveText (s : State) : List Char :=
  saveLoop s.tasks 0 s.taskCount

/-- `saveTasks()`: `file` is the tasks file before the call (`none` when it
does not exist), `canOpen` tells whether `fopen(FILENAME, "w")` succeeds.
Returns the file after the call. -/
def saveTasks (s : State) (canOpen : Bool) (file : Option (List Char)) :
    Option (List Char) × List Msg :=
  if canOpen then (some (saveText s), []) else (file, [Msg.saveOpenError])

/-- The reading loop of `loadTasks()`. Every turn consumes at least one
character of `stream`, so `fuel = stream.length` turns are enough
(`loadLoop_fuel`). Returns the array, `taskCount` and the warnings printed.
The local `maxId` and the closing loop over `currentMaxId` only compute
values that nothing reads, so they do not appear. -/
def loadLoop : Nat → List Char → (Nat → Task) → Nat → List Msg →
    (Nat → Task) × Nat × List Msg
  | 0, _, tasks, taskCount, out => (tasks, taskCount, out)
  | fuel + 1, stream, tasks, taskCount, out =>
    match fgets (MAX_TASK_LEN + 10) stream with
    | none => (tasks, taskCount, out)
    | some (buf, rest) =>
      if taskCount < MAX_TASKS then
        let line := stripNewline buf
        match sscanfRecord line with
        | some (id, completedStatus, description) =>
          loadLoop fuel rest
            (Function.update tasks taskCount
              { id := id, description := description,
                completed := decide (completedStatus ≠ 0) })
            (taskCount + 1) out
        | none => loadLoop fuel rest tasks taskCount (out ++ [Msg.malformedLine line])
      else (tasks, taskCount, out)

/-- `loadTasks()`: `file` is the content of the tasks file, `none` when
`fopen(FILENAME, "r")` fails. -/
def loadTasks (s : State) (file : Option (List Char)) : State × List Msg :=
  match file with
  | none => (s, [Msg.noFile])
  | some content =>
    let r := loadLoop content.length content s.tasks 0 []
    ({ tasks := r.1, taskCount := r.2.1 }, r.2.2 ++ [Msg.loaded r.2.1])

/-! ## Drivers and sample data used in the statements -/

/-- A run of `addTask()` calls, one input per call, as the menu loop of
`main` issues them: the final state and the messages in call order. -/
def addSeq : State → List (List Char) → State × List Msg
  | s, [] => (s, [])
  | s, stdin :: more =>
    ((addSeq (addTask s stdin).1 more).1, (addTask s stdin).2 :: (addSeq (addTask s stdin).1 more).2)

/-- The id of the last live task, `0` for the empty store: the value
`addTask()` increments. -/
def lastId (s : State) : Int :=
  if s.taskCount > 0 then (s.tasks (s.taskCount - 1)).id else 0

/-- A store of three tasks with ids 1, 2, 3, the second one completed. -/
def sampleStore : State :=
  { tasks := fun i => { id := i + 1, description := ['t'], completed := decide (i = 1) },
    taskCount := 3 }

/-- A store whose ids are 3, 2: what `loadTasks()` builds from a file that
lists the records in that order. -/
def unorderedStore : State :=
  { tasks := fun i => { id := 3 - i, description := ['t'], completed := false },
    taskCount := 2 }

/-- A store that holds `MAX_TASKS` tasks, ids 1 to 100. -/
def fullStore : State :=
  { tasks := fun i => { id := i + 1, description := ['x'], completed := false },
    taskCount := 100 }

/-- One line of the tasks file in the shape `<id>,<0 or 1>,<description>`,
without its terminator: the id is written as an optional minus sign and a
run of decimal digits. -/
structure RecordLine where
  negative : Bool
  digits : List Char
  flag : Bool
  description : List Char

/-- The characters of a record line. -/
def RecordLine.text (r : RecordLine) : List Char :=
  (if r.negative then ['-'] else []) ++ r.digits ++
    ',' :: (if r.flag then '1' else '0') :: ',' :: r.description

/-- The integer a record line writes as its id. -/
def RecordLine.idValue (r : RecordLine) : Int :=
  if r.negative then -(digitsValue r.digits : Int) else (digitsValue r.digits : Int)

/-- The task a record line stands for. -/
def RecordLine.task (r : RecordLine) : Task :=
  { id := r.idValue, description := r.description, completed := r.flag }

/-- A record line is well formed when its id is a non-empty run of digits
that denotes an `int`, its description is a non-empty C string of at most
255 characters without a newline, and the line with its terminator fits the
266-character line buffer of `loadTasks()`. -/
def RecordLine.WellFormed (r : RecordLine) : Prop :=
  r.digits ≠ [] ∧ (∀ c ∈ r.digits, c.isDigit = true) ∧
    -2147483648 ≤ r.idValue ∧ r.idValue ≤ 2147483647 ∧
    r.description ≠ [] ∧ '\n' ∉ r.description ∧ NUL ∉ r.description ∧
    r.description.length ≤ 255 ∧ r.text.length + 1 ≤ 265

instance (r : RecordLine) : Decidable r.WellFormed := by
  unfold RecordLine.WellFormed
  infer_instance

/-- The record line `saveTasks()` writes for a task, without the terminator. -/
def RecordLine.ofTask (t : Task) : RecordLine :=
  { negative := decide (t.id < 0),
    digits := natDigits (t.id.natAbs + 1) t.id.natAbs,
    flag := t.completed,
    description := t.description }

/-- A hundred record lines `1,0,a` ... `100,0,a`. -/
def hundredRecords : List RecordLine :=
  (List.range 100).map fun i =>
    { negative := false, digits := natDigits (i + 2) (i + 1), flag := false, description := ['a'] }

/-- The content of a file made of the given lines, each followed by the
line terminator. -/
def fileText : List (List Char) → List Char
  | [] => []
  | line :: more => line ++ '\n' :: fileText more

/-- Writing the tasks `ts` into the slots `n`, `n + 1`, ... of the array. -/
def storeAll : (Nat → Task) → Nat → List Task → (Nat → Task)
  | tasks, _, [] => tasks
  | tasks, n, t :: ts => storeAll (Function.update tasks n t) (n + 1) ts

/-- The store after loading the one-record file `9999999,0,x` and adding a
task with a description of 255 characters: ids 9999999 and 10000000. -/
def longRecordStore : State :=
  (addTask
    (loadTasks State.init (some (List.replicate 7 '9' ++ [',', '0', ',', 'x', '\n']))).1
    (List.replicate 255 'a' ++ ['\n'])).1

/-- The record lines `1,0,milk` and `-7,1,a,b`. -/
def sampleRecords : List RecordLine :=
  [{ negative := false, digits := ['1'], flag := false, description := ['m', 'i', 'l', 'k'] },
   { negative := true, digits := ['7'], flag := true, description := ['a', ',', 'b'] }]

/-- A store of two tasks whose first description holds commas. -/
def commaStore : State :=
  { tasks := fun i =>
      if i = 0 then { id := 1, description := ['a', ',', 'b', ',', 'c'], completed := true }
      else { id := 2, description := ['d'], completed := false },
    taskCount := 2 }

/-- A one-line tasks file: the record `1,0,` followed by 256 times `a`. -/
def longDescriptionFile : List Char :=
  ['1', ',', '0', ','] ++ List.replicate 256 'a' ++ ['\n']

/-! ## Sequences of operations -/

/-- One menu choice that changes the store, with the input it reads. -/
inductive Op where
  /-- Choice 1, `addTask()`, with the characters waiting on `stdin`. -/
  | add (stdin : List Char)
  /-- Choice 3, `markTaskComplete()`, with what `scanf` reads. -/
  | complete (input : Option Int)
  /-- Choice 4, `deleteTask()`, with what `scanf` reads. -/
  | delete (input : Option Int)

/-- The `switch` of `main` on one choice. -/
def step (s : State) : Op → State × Msg
  | Op.add stdin => addTask s stdin
  | Op.complete input => markTaskComplete s input
  | Op.delete input => deleteTask s input

/-- The state after a sequence of choices. -/
def run : State → List Op → State
  | s, [] => s
  | s, op :: ops => run (step s op).1 ops

/-- The messages printed during a sequence of choices, in order. -/
def trace : State → List Op → List Msg
  | _, [] => []
  | s, op :: ops => (step s op).2 :: trace (step s op).1 ops

/-- The ids of the live tasks are positive, at most `k`, and strictly
increasing by position. -/
def State.IdsIncreasing (s : State) (k : Int) : Prop :=
  (∀ i, i < s.taskCount → 0 < (s.tasks i).id ∧ (s.tasks i).id ≤ k) ∧
    ∀ i j, i < j → j < s.taskCount → (s.tasks i).id < (s.tasks j).id

/-- A sequence that keeps one task in the store and raises its id by one in
every round: Add once, then `m` times Add followed by Delete of the older
task. -/
def churn : Nat → List Op
  | 0 => [Op.add ['a', '\n']]
  | m + 1 => churn m ++ [Op.add ['a', '\n'], Op.delete (some ((m : Int) + 1))]

/-- The loop `for (i...) if (tasks[i].id > currentMaxId) currentMaxId = tasks[i].id;`
at the end of `loadTasks()`, from slot `i` with `k` slots left. -/
def currentMaxIdLoop (tasks : Nat → Task) : Nat → Nat → Int → Int
  | _, 0, currentMaxId => currentMaxId
  | i, k + 1, currentMaxId =>
    currentMaxIdLoop tasks (i + 1) k
      (if (tasks i).id > currentMaxId then (tasks i).id else currentMaxId)

/-- The value `loadTasks()` computes in `currentMaxId` (and, line by line,
in `maxId`) and never uses: the largest live id, or 0 when none is positive. -/
def currentMaxId (s : State) : Int :=
  currentMaxIdLoop s.tasks 0 s.taskCount 0

/-- The colour a message is printed in. -/
inductive Colour where
  | red
  | green
  | yellow
deriving DecidableEq, Repr

/-- The colour macro in front of each message of `todo.c`: `RED` for
errors and warnings, `YELLOW` for notices, `GREEN` for success. -/
def Msg.colour : Msg → Colour
  | Msg.listFull => Colour.red
  | Msg.readError => Colour.red
  | Msg.emptyDescription => Colour.red
  | Msg.added _ => Colour.green
  | Msg.noTasksToComplete => Colour.yellow
  | Msg.invalidInput => Colour.red
  | Msg.markedComplete _ => Colour.green
  | Msg.notFound _ => Colour.red
  | Msg.noTasksToDelete => Colour.yellow
  | Msg.deleted _ => Colour.green
  | Msg.saveOpenError => Colour.red
  | Msg.noFile => Colour.yellow
  | Msg.malformedLine _ => Colour.red
  | Msg.loaded _ => Colour.green

/-! ## The record format in the words of the specification -/

/-- The decimal numeral of an integer: a minus sign when it is negative,
then the decimal digits of its absolute value. -/
def decimal (i : Int) : List Char :=
  if i < 0 then '-' :: Nat.toDigits 10 i.natAbs else Nat.toDigits 10 i.natAbs

/-- One record as the specification words it: `decimal(id)`, a comma, `1`
for a completed task and `0` otherwise, a comma, the description, a newline. -/
def specRecord (t : Task) : List Char :=
  decimal t.id ++ [','] ++ [if t.completed then '1' else '0'] ++ [','] ++ t.description ++ ['\n']

/-- The file as the specification words it: the records of the tasks, in
store order, one after the other. -/
def specSaveText (store : List Task) : List Char :=
  (store.map specRecord).flatten

/-! ## The records Load parses, read off the file content -/

theorem view_length (s : State) : s.view.length = s.taskCount := by
  simp [State.view]

theorem view_getElem? (s : State) (i : Nat) :
    s.view[i]? = if i < s.taskCount then some (s.tasks i) else none := by
  unfold State.view
  by_cases h : i < s.taskCount
  · simp [h, List.getElem?_range h]
  · simp [h, List.getElem?_eq_none (show (List.range s.taskCount).length ≤ i by simpa using h)]

theorem mem_view {s : State} {t : Task} : t ∈ s.view ↔ ∃ i, i < s.taskCount ∧ s.tasks i = t := by
  simp [State.view]

theorem view_succ (tasks : Nat → Task) (n : Nat) :
    State.view ⟨tasks, n + 1⟩ = State.view ⟨tasks, n⟩ ++ [tasks n] := by
  simp [State.view, List.range_succ]

theorem view_congr {tasks tasks2 : Nat → Task} {n : Nat}
    (h : ∀ i, i < n → tasks2 i = tasks i) : State.view ⟨tasks2, n⟩ = State.view ⟨tasks, n⟩ := by
  unfold State.view
  apply List.map_congr_left
  intro i hi
  exact h i (by simpa using hi)

/-! ## The search loop -/

theorem findLoop_some {tasks : Nat → Task} {taskId : Int} {k i j : Nat}
    (h : findLoop tasks taskId i k = some j) :
    i ≤ j ∧ j < i + k ∧ (tasks j).id = taskId ∧ ∀ l, i ≤ l → l < j → (tasks l).id ≠ taskId := by
  induction k generalizing i with
  | zero => simp [findLoop] at h
  | succ k ih =>
    unfold findLoop at h
    by_cases hid : (tasks i).id = taskId
    · simp only [hid, if_true, Option.some.injEq] at h
      subst h
      exact ⟨le_refl _, by omega, hid, fun l h1 h2 => by omega⟩
    · simp only [hid, if_false] at h
      obtain ⟨h1, h2, h3, h4⟩ := ih h
      refine ⟨by omega, by omega, h3, fun l hl1 hl2 => ?_⟩
      by_cases hli : l = i
      · subst hli; exact hid
      · exact h4 l (by omega) hl2

theorem findLoop_none {tasks : Nat → Task} {taskId : Int} {k i : Nat} :
    findLoop tasks taskId i k = none ↔ ∀ l, i ≤ l → l < i + k → (tasks l).id ≠ taskId := by
  induction k generalizing i with
  | zero => simp [findLoop]; intro l h1 h2; omega
  | succ k ih =>
    unfold findLoop
    by_cases hid : (tasks i).id = taskId
    · simp only [hid, if_true]
      constructor
      · intro h; cases h
      · intro h; exact absurd hid (h i (le_refl _) (by omega))
    · simp only [hid, if_false, ih]
      constructor
      · intro h l h1 h2
        by_cases hli : l = i
        · subst hli; exact hid
        · exact h l (by omega) (by omega)
      · intro h l h1 h2
        exact h l (by omega) (by omega)

theorem findLoop_of_mem {s : State} {taskId : Int} (h : ∃ t ∈ s.view, t.id = taskId) :
    ∃ j, findLoop s.tasks taskId 0 s.taskCount = some j := by
  obtain ⟨t, ht, hid⟩ := h
  obtain ⟨i, hi, rfl⟩ := mem_view.1 ht
  cases hf : findLoop s.tasks taskId 0 s.taskCount with
  | some j => exact ⟨j, rfl⟩
  | none => exact absurd hid (findLoop_none.1 hf i (Nat.zero_le _) (by omega))

theorem markLoop_eq (tasks : Nat → Task) (taskId : Int) (i k : Nat) :
    markLoop tasks taskId i k =
      (findLoop tasks taskId i k).map
        (fun j => Function.update tasks j { tasks j with completed := true }) := by
  induction k generalizing i with
  | zero => rfl
  | succ k ih =>
    unfold markLoop findLoop
    by_cases hid : (tasks i).id = taskId
    · simp [hid]
    · simp [hid, ih]

theorem shiftLoop_apply (tasks : Nat → Task) (i k j : Nat) :
    shiftLoop tasks i k j = if i ≤ j ∧ j < i + k then tasks (j + 1) else tasks j := by
  induction k generalizing tasks i with
  | zero =>
    rw [if_neg (by omega)]
    rfl
  | succ k ih =>
    unfold shiftLoop
    rw [ih]
    by_cases h1 : i + 1 ≤ j ∧ j < i + 1 + k
    · have : i ≤ j ∧ j < i + (k + 1) := by omega
      simp only [h1, this, and_self, if_true]
      rw [Function.update_noteq (by omega)]
    · simp only [h1, if_false]
      by_cases h2 : j = i
      · subst h2
        simp
      · have : ¬ (i ≤ j ∧ j < i + (k + 1)) := by omega
        simp only [this, if_false]
        rw [Function.update_noteq h2]

/-! ## Delete -/

/-- C2. When some live task has the id, `deleteTask` reports the deletion and
leaves exactly the store without the first task carrying that id: the count
drops by one, the slots before it are untouched, every later task moves one
slot down, so all other tasks are kept in their order. -/
theorem deleteTask_removes_first_match (s : State) (taskId : Int)
    (h : ∃ t ∈ s.view, t.id = taskId) :
    ∃ i, i < s.taskCount ∧ (s.tasks i).id = taskId ∧
      (∀ j, j < i → (s.tasks j).id ≠ taskId) ∧
      (deleteTask s (some taskId)).2 = Msg.deleted taskId ∧
      (deleteTask s (some taskId)).1.taskCount + 1 = s.taskCount ∧
      (deleteTask s (some taskId)).1.view = s.view.eraseIdx i ∧
      (∀ j, j < i → (deleteTask s (some taskId)).1.tasks j = s.tasks j) ∧
      (∀ j, i ≤ j → j + 1 < s.taskCount →
        (deleteTask s (some taskId)).1.tasks j = s.tasks (j + 1)) := by
  obtain ⟨i, hi⟩ := findLoop_of_mem h
  obtain ⟨-, hlt, hid, hfirst⟩ := findLoop_some hi
  have hpos : s.taskCount ≠ 0 := by omega
  have hdel : deleteTask s (some taskId) =
      ({ tasks := shiftLoop s.tasks i (s.taskCount - 1 - i), taskCount := s.taskCount - 1 },
        Msg.deleted taskId) := by
    simp [deleteTask, hpos, hi]
  refine ⟨i, by omega, hid, fun j hj => hfirst j (Nat.zero_le _) hj, ?_, ?_, ?_, ?_, ?_⟩
  · rw [hdel]
  · rw [hdel]; show s.taskCount - 1 + 1 = s.taskCount; omega
  · rw [hdel]
    apply List.ext_getElem?
    intro j
    rw [view_getElem?, List.getElem?_eraseIdx, view_getElem?, view_getElem?]
    show (if j < s.taskCount - 1 then some (shiftLoop s.tasks i (s.taskCount - 1 - i) j) else none)
      = _
    rw [shiftLoop_apply]
    by_cases hji : j < i
    · have h1 : j < s.taskCount - 1 := by omega
      have h2 : j < s.taskCount := by omega
      have h3 : ¬ (i ≤ j ∧ j < i + (s.taskCount - 1 - i)) := by omega
      simp only [hji, h1, h2, h3, if_true, if_false]
    · by_cases hjn : j < s.taskCount - 1
      · have h2 : j + 1 < s.taskCount := by omega
        have h3 : i ≤ j ∧ j < i + (s.taskCount - 1 - i) := by omega
        simp only [hji, hjn, h2, h3, and_self, if_true, if_false]
      · have h2 : ¬ (j + 1 < s.taskCount) := by omega
        simp only [hji, hjn, h2, if_false]
  · intro j hj
    rw [hdel]
    show shiftLoop s.tasks i (s.taskCount - 1 - i) j = s.tasks j
    rw [shiftLoop_apply, if_neg (by omega)]
  · intro j hj1 hj2
    rw [hdel]
    show shiftLoop s.tasks i (s.taskCount - 1 - i) j = s.tasks (j + 1)
    rw [shiftLoop_apply, if_pos (by omega)]

/-- C3 as stated fails on the empty store: `deleteTask` returns before it
reads an id and reports "No tasks to delete.", not "Task with ID 1 not found.". -/
theorem deleteTask_empty_store_not_notFound :
    (∀ t ∈ State.init.view, t.id ≠ 1) ∧
      (deleteTask State.init (some 1)).2 = Msg.noTasksToDelete ∧
      (deleteTask State.init (some 1)).2 ≠ Msg.notFound 1 := by
  refine ⟨?_, ?_, ?_⟩
  · intro t ht
    simp [State.view, State.init] at ht
  · rfl
  · decide

/-- C3, amended. When no live task has the id, `deleteTask` leaves the whole
state as it is; it reports "not found" for a store that holds tasks and
"No tasks to delete." for the empty store. -/
theorem deleteTask_absent_id (s : State) (taskId : Int)
    (h : ∀ t ∈ s.view, t.id ≠ taskId) :
    (deleteTask s (some taskId)).1 = s ∧
      (deleteTask s (some taskId)).1.view = s.view ∧
      (s.taskCount ≠ 0 → (deleteTask s (some taskId)).2 = Msg.notFound taskId) ∧
      (s.taskCount = 0 → (deleteTask s (some taskId)).2 = Msg.noTasksToDelete) := by
  have hnone : findLoop s.tasks taskId 0 s.taskCount = none := by
    rw [findLoop_none]
    intro l _ hl
    exact h (s.tasks l) (mem_view.2 ⟨l, by omega, rfl⟩)
  by_cases h0 : s.taskCount = 0
  · simp [deleteTask, h0]
  · simp [deleteTask, h0, hnone]

/-! ## Complete -/

/-- C4. When some live task has the id, `markTaskComplete` reports success
and sets `completed` on the first task with that id; the count, that task's
id and description, and every other slot stay as they were. -/
theorem markTaskComplete_sets_first_match (s : State) (taskId : Int)
    (h : ∃ t ∈ s.view, t.id = taskId) :
    ∃ i, i < s.taskCount ∧ (s.tasks i).id = taskId ∧
      (∀ j, j < i → (s.tasks j).id ≠ taskId) ∧
      (markTaskComplete s (some taskId)).2 = Msg.markedComplete taskId ∧
      (markTaskComplete s (some taskId)).1.taskCount = s.taskCount ∧
      (markTaskComplete s (some taskId)).1.tasks i =
        { id := (s.tasks i).id, description := (s.tasks i).description, completed := true } ∧
      (∀ j, j ≠ i → (markTaskComplete s (some taskId)).1.tasks j = s.tasks j) ∧
      (markTaskComplete s (some taskId)).1.view =
        s.view.set i { s.tasks i with completed := true } := by
  obtain ⟨i, hi⟩ := findLoop_of_mem h
  obtain ⟨-, hlt, hid, hfirst⟩ := findLoop_some hi
  have hpos : s.taskCount ≠ 0 := by omega
  have hmark : markTaskComplete s (some taskId) =
      ({ s with tasks := Function.update s.tasks i { s.tasks i with completed := true } },
        Msg.markedComplete taskId) := by
    simp [markTaskComplete, hpos, markLoop_eq, hi]
  refine ⟨i, by omega, hid, fun j hj => hfirst j (Nat.zero_le _) hj, ?_, ?_, ?_, ?_, ?_⟩
  · rw [hmark]
  · rw [hmark]
  · rw [hmark]; simp
  · intro j hj
    rw [hmark]
    exact Function.update_noteq hj _ _
  · rw [hmark]
    apply List.ext_getElem?
    intro j
    rw [view_getElem?, List.getElem?_set, view_getElem?, view_length]
    show (if j < s.taskCount then
        some (Function.update s.tasks i { s.tasks i with completed := true } j) else none) = _
    by_cases hji : i = j
    · subst hji
      have : i < s.taskCount := by omega
      simp [this]
    · rw [Function.update_noteq (Ne.symm hji)]
      simp [hji]

/-- C5. `markTaskComplete` is idempotent on an id the store holds: the second
call reports success again and returns the state the first call returned. -/
theorem markTaskComplete_idempotent (s : State) (taskId : Int)
    (h : ∃ t ∈ s.view, t.id = taskId) :
    (markTaskComplete s (some taskId)).2 = Msg.markedComplete taskId ∧
      markTaskComplete (markTaskComplete s (some taskId)).1 (some taskId) =
        ((markTaskComplete s (some taskId)).1, Msg.markedComplete taskId) := by
  obtain ⟨i, hi⟩ := findLoop_of_mem h
  obtain ⟨-, hlt, hid, hfirst⟩ := findLoop_some hi
  have hpos : s.taskCount ≠ 0 := by omega
  have hmark : markTaskComplete s (some taskId) =
      ({ s with tasks := Function.update s.tasks i { s.tasks i with completed := true } },
        Msg.markedComplete taskId) := by
    simp [markTaskComplete, hpos, markLoop_eq, hi]
  have hi2 : findLoop (Function.update s.tasks i { s.tasks i with completed := true })
      taskId 0 s.taskCount = some i := by
    cases hf : findLoop (Function.update s.tasks i { s.tasks i with completed := true })
        taskId 0 s.taskCount with
    | none =>
      have := findLoop_none.1 hf i (Nat.zero_le _) (by omega)
      simp [hid] at this
    | some j =>
      obtain ⟨-, hj1, hj2, hj3⟩ := findLoop_some hf
      by_cases hji : j = i
      · rw [hji]
      · exfalso
        rw [Function.update_noteq hji] at hj2
        rcases Nat.lt_or_gt_of_ne hji with hlt2 | hgt
        · exact hfirst j (Nat.zero_le _) hlt2 hj2
        · have := hj3 i (Nat.zero_le _) hgt
          simp [hid] at this
  refine ⟨by rw [hmark], ?_⟩
  rw [hmark]
  simp [markTaskComplete, hpos, markLoop_eq, hi2]

/-! ## Reading a line -/

theorem fgetsAux_line {text : List Char} (hnl : '\n' ∉ text) (rest : List Char) {k : Nat}
    (hk : text.length < k) :
    fgetsAux k (text ++ '\n' :: rest) = (text ++ ['\n'], rest) := by
  induction text generalizing k with
  | nil =>
    cases k with
    | zero => simp at hk
    | succ k => simp [fgetsAux]
  | cons c text ih =>
    cases k with
    | zero => simp at hk
    | succ k =>
      have hc : c ≠ '\n' := fun h => hnl (by simp [h])
      have ht : '\n' ∉ text := fun h => hnl (by simp [h])
      have := ih ht (k := k) (by simpa using hk)
      simp [fgetsAux, hc, this]

theorem fgetsAux_long {text : List Char} (hnl : '\n' ∉ text) (rest : List Char) {k : Nat}
    (hk : k ≤ text.length) :
    fgetsAux k (text ++ rest) = (text.take k, text.drop k ++ rest) := by
  induction text generalizing k with
  | nil =>
    have : k = 0 := by simpa using hk
    subst this
    simp [fgetsAux]
  | cons c text ih =>
    cases k with
    | zero => simp [fgetsAux]
    | succ k =>
      have hc : c ≠ '\n' := fun h => hnl (by simp [h])
      have ht : '\n' ∉ text := fun h => hnl (by simp [h])
      have := ih ht (k := k) (by simpa using hk)
      simp [fgetsAux, hc, this]

theorem takeWhile_ne_of_not_mem {c : Char} {l : List Char} (h : c ∉ l) :
    l.takeWhile (fun d => d != c) = l := by
  induction l with
  | nil => rfl
  | cons d l ih =>
    have hd : d ≠ c := fun e => h (by simp [e])
    have hl : c ∉ l := fun e => h (by simp [e])
    rw [List.takeWhile_cons]
    simp [hd, ih hl]

theorem takeWhile_ne_append {c : Char} {l : List Char} (h : c ∉ l) (r : List Char) :
    (l ++ c :: r).takeWhile (fun d => d != c) = l := by
  induction l with
  | nil => simp [List.takeWhile_cons]
  | cons d l ih =>
    have hd : d ≠ c := fun e => h (by simp [e])
    have hl : c ∉ l := fun e => h (by simp [e])
    rw [List.cons_append, List.takeWhile_cons]
    simp [hd, ih hl]

theorem NUL_ne_newline : NUL ≠ '\n' := by decide

theorem stripNewline_line {text : List Char} (hnl : '\n' ∉ text) (hnul : NUL ∉ text) :
    stripNewline (text ++ ['\n']) = text := by
  unfold stripNewline cstr
  have h : NUL ∉ text ++ ['\n'] := by
    simp only [List.mem_append, List.mem_singleton, not_or]
    exact ⟨hnul, NUL_ne_newline⟩
  rw [takeWhile_ne_of_not_mem h, takeWhile_ne_append hnl]

theorem stripNewline_text {text : List Char} (hnl : '\n' ∉ text) (hnul : NUL ∉ text) :
    stripNewline text = text := by
  unfold stripNewline cstr
  rw [takeWhile_ne_of_not_mem hnul, takeWhile_ne_of_not_mem hnl]

/-- The line `fgets` and the newline removal hand to the caller when the
input starts with a line of at most `k` characters. -/
theorem stripNewline_fgetsAux {text : List Char} (hnl : '\n' ∉ text) (hnul : NUL ∉ text)
    (rest : List Char) {k : Nat} (hk : text.length ≤ k) :
    stripNewline (fgetsAux k (text ++ '\n' :: rest)).1 = text := by
  by_cases h : text.length < k
  · rw [fgetsAux_line hnl rest h]
    exact stripNewline_line hnl hnul
  · have hk2 : k ≤ text.length := by omega
    rw [fgetsAux_long hnl _ hk2]
    have : text.take k = text := List.take_of_length_le (by omega)
    simp only [this]
    exact stripNewline_text hnl hnul

/-! ## Add -/

/-- C6, amended. On a store with fewer than 100 tasks, an input line whose
text is non-empty, at most 255 characters long and without a NUL character
is accepted: `addTask` reports success, writes the new task into slot
`taskCount` with that text as description and `completed = false`, raises
the count by one and leaves every earlier slot alone. -/
theorem addTask_appends (s : State) (text rest : List Char)
    (hcount : s.taskCount < MAX_TASKS) (hne : text ≠ []) (hlen : text.length ≤ 255)
    (hnl : '\n' ∉ text) (hnul : NUL ∉ text) :
    ∃ id : Int,
      (addTask s (text ++ '\n' :: rest)).2 = Msg.added id ∧
      (addTask s (text ++ '\n' :: rest)).1.taskCount = s.taskCount + 1 ∧
      (addTask s (text ++ '\n' :: rest)).1.view =
        s.view ++ [{ id := id, description := text, completed := false }] ∧
      (∀ i, i < s.taskCount → (addTask s (text ++ '\n' :: rest)).1.tasks i = s.tasks i) ∧
      (addTask s (text ++ '\n' :: rest)).1.tasks s.taskCount =
        { id := id, description := text, completed := false } := by
  have hfg : fgets MAX_TASK_LEN (text ++ '\n' :: rest) =
      some (fgetsAux 255 (text ++ '\n' :: rest)) := by
    cases text with
    | nil => exact absurd rfl hne
    | cons c t => rfl
  have hstrip := stripNewline_fgetsAux hnl hnul rest hlen
  have hlen0 : text.length ≠ 0 := by
    intro h0
    exact hne (List.length_eq_zero.1 h0)
  have hnot : ¬ (s.taskCount ≥ MAX_TASKS) := by omega
  refine ⟨if s.taskCount > 0 then wrapInt ((s.tasks (s.taskCount - 1)).id + 1) else 1, ?_⟩
  have hadd : addTask s (text ++ '\n' :: rest) =
      ({ tasks := Function.update s.tasks s.taskCount
          { id := if s.taskCount > 0 then wrapInt ((s.tasks (s.taskCount - 1)).id + 1) else 1,
            description := text, completed := false },
         taskCount := s.taskCount + 1 },
       Msg.added (if s.taskCount > 0 then wrapInt ((s.tasks (s.taskCount - 1)).id + 1) else 1)) := by
    unfold addTask
    rw [if_neg hnot, hfg]
    simp only [hstrip, hlen0, if_false]
  rw [hadd]
  refine ⟨rfl, rfl, ?_, ?_, ?_⟩
  · rw [view_succ]
    congr 1
    · exact view_congr (fun i hi => Function.update_noteq (by omega) _ _)
    · simp
  · intro i hi
    exact Function.update_noteq (by omega) _ _
  · simp

/-- C8 as stated fails on a full store: the capacity check comes first, so
the empty line is answered with "Task list is full.", not with the
empty-description message. -/
theorem addTask_full_store_empty_line :
    fullStore.taskCount = MAX_TASKS ∧
      (addTask fullStore ['\n']).2 = Msg.listFull ∧
      (addTask fullStore ['\n']).2 ≠ Msg.emptyDescription := by
  refine ⟨rfl, ?_⟩
  constructor
  · rfl
  · decide

/-- C8, amended. An input that starts with the line terminator never appends
a task: the count and every live task stay as they were. On a store with
fewer than 100 tasks the report is the empty-description message; on a full
store it is the list-full message. When the input is exhausted instead, a
store with fewer than 100 tasks gets the read-error message and the state is
returned as it was. -/
theorem addTask_empty_line (s : State) (rest : List Char) :
    ((s.taskCount < MAX_TASKS → (addTask s ('\n' :: rest)).2 = Msg.emptyDescription) ∧
      (MAX_TASKS ≤ s.taskCount → (addTask s ('\n' :: rest)).2 = Msg.listFull) ∧
      (addTask s ('\n' :: rest)).1.taskCount = s.taskCount ∧
      (addTask s ('\n' :: rest)).1.view = s.view ∧
      (∀ i, i < s.taskCount → (addTask s ('\n' :: rest)).1.tasks i = s.tasks i)) ∧
    ((s.taskCount < MAX_TASKS → (addTask s []).2 = Msg.readError) ∧ (addTask s []).1 = s) := by
  refine ⟨?_, ?_⟩
  swap
  · by_cases hfull : s.taskCount ≥ MAX_TASKS
    · have hadd : addTask s [] = (s, Msg.listFull) := by
        unfold addTask
        rw [if_pos hfull]
      rw [hadd]
      exact ⟨fun h => by omega, rfl⟩
    · have hadd : addTask s [] = (s, Msg.readError) := by
        unfold addTask
        rw [if_neg hfull]
        rfl
      rw [hadd]
      exact ⟨fun _ => rfl, rfl⟩
  have hstrip : stripNewline (fgetsAux 255 ('\n' :: rest)).1 = [] := by
    simp [fgetsAux, stripNewline, cstr, List.takeWhile, NUL_ne_newline.symm]
  by_cases hfull : s.taskCount ≥ MAX_TASKS
  · have hadd : addTask s ('\n' :: rest) = (s, Msg.listFull) := by
      unfold addTask
      rw [if_pos hfull]
    rw [hadd]
    refine ⟨fun h => by omega, fun _ => rfl, rfl, rfl, fun _ _ => rfl⟩
  · have hadd : addTask s ('\n' :: rest) =
        ({ tasks := Function.update s.tasks s.taskCount
                      { s.tasks s.taskCount with description := [] },
           taskCount := s.taskCount }, Msg.emptyDescription) := by
      unfold addTask
      rw [if_neg hfull]
      have h255 : MAX_TASK_LEN - 1 = 255 := rfl
      simp only [fgets, h255, hstrip, List.length_nil, if_true]
    rw [hadd]
    refine ⟨fun _ => rfl, fun h => by omega, rfl, ?_, ?_⟩
    · exact view_congr (fun i hi => Function.update_noteq (by omega) _ _)
    · intro i hi
      exact Function.update_noteq (by omega) _ _

/-- C9. On a store that holds 100 tasks `addTask` reports that the list is
full, whatever is typed, and returns the state it was given. -/
theorem addTask_at_capacity (s : State) (stdin : List Char) (h : s.taskCount = MAX_TASKS) :
    addTask s stdin = (s, Msg.listFull) := by
  unfold addTask
  rw [if_pos (by omega)]

/-! ## Runs of Add -/

theorem wrapInt_of_range {x : Int} (h1 : -2147483648 ≤ x) (h2 : x ≤ 2147483647) :
    wrapInt x = x := by
  unfold wrapInt
  omega

theorem ids_push (tasks : Nat → Task) (n : Nat) (t : Task) :
    State.ids ⟨Function.update tasks n t, n + 1⟩ = State.ids ⟨tasks, n⟩ ++ [t.id] := by
  unfold State.ids
  rw [view_succ, List.map_append]
  congr 1
  · rw [view_congr (fun i hi => Function.update_noteq (by omega) _ _)]
  · simp

/-- What a successful `addTask()` did: the store was not full, the id is
the successor of the last live id (1 on the empty store), and the new task
sits in slot `taskCount`. -/
theorem addTask_added_inv {s : State} {stdin : List Char} {id : Int}
    (h : (addTask s stdin).2 = Msg.added id) :
    s.taskCount < MAX_TASKS ∧
      id = (if s.taskCount > 0 then wrapInt ((s.tasks (s.taskCount - 1)).id + 1) else 1) ∧
      ∃ description, (addTask s stdin).1 =
        { tasks := Function.update s.tasks s.taskCount
            { id := id, description := description, completed := false },
          taskCount := s.taskCount + 1 } := by
  unfold addTask at h ⊢
  by_cases hfull : s.taskCount ≥ MAX_TASKS
  · rw [if_pos hfull] at h
    cases h
  · rw [if_neg hfull] at h ⊢
    generalize fgets MAX_TASK_LEN stdin = r at h ⊢
    cases r with
    | none => cases h
    | some p =>
      obtain ⟨buf, rest⟩ := p
      by_cases hlen : (stripNewline buf).length = 0
      · simp only [hlen, if_true] at h
        cases h
      · simp only [hlen, if_false] at h ⊢
        have hid : (if s.taskCount > 0 then wrapInt ((s.tasks (s.taskCount - 1)).id + 1) else 1)
            = id := by
          injection h
        refine ⟨by omega, hid.symm, stripNewline buf, ?_⟩
        rw [hid]

theorem addSeq_ids (inputs : List (List Char)) :
    ∀ s : State, (∀ m ∈ (addSeq s inputs).2, ∃ id, m = Msg.added id) →
      -2147483648 ≤ lastId s → lastId s + inputs.length ≤ 2147483647 →
      (addSeq s inputs).1.ids =
          s.ids ++ (List.range inputs.length).map (fun k : Nat => lastId s + 1 + (k : Int)) ∧
        (addSeq s inputs).2 =
          (List.range inputs.length).map (fun k : Nat => Msg.added (lastId s + 1 + (k : Int))) ∧
        (addSeq s inputs).1.taskCount = s.taskCount + inputs.length := by
  induction inputs with
  | nil =>
    intro s _ _ _
    simp [addSeq]
  | cons stdin more ih =>
    intro s hsucc hlo hhi
    obtain ⟨id, hid⟩ := hsucc (addTask s stdin).2 (by simp [addSeq])
    obtain ⟨hcap, hidv, description, hst⟩ := addTask_added_inv hid
    have hlen : ((stdin :: more).length : Int) = (more.length : Int) + 1 := by simp
    have hidl : id = lastId s + 1 := by
      rw [hidv]
      unfold lastId at hlo hhi ⊢
      by_cases hpos : s.taskCount > 0
      · simp only [hpos, if_true] at hlo hhi ⊢
        exact wrapInt_of_range (by omega) (by omega)
      · simp only [hpos, if_false]
        rfl
    have hlast : lastId (addTask s stdin).1 = lastId s + 1 := by
      rw [hst]
      show (if s.taskCount + 1 > 0 then
          (Function.update s.tasks s.taskCount
            { id := id, description := description, completed := false }
            (s.taskCount + 1 - 1)).id else 0) = _
      rw [if_pos (Nat.succ_pos _), Nat.add_sub_cancel, Function.update_same]
      exact hidl
    have hids : (addTask s stdin).1.ids = s.ids ++ [lastId s + 1] := by
      rw [hst, ids_push, hidl]
    have hcount : (addTask s stdin).1.taskCount = s.taskCount + 1 := by
      rw [hst]
    have hrec := ih (addTask s stdin).1
      (fun m hm => hsucc m (by simp only [addSeq, List.mem_cons]; exact Or.inr hm))
      (by rw [hlast]; omega) (by rw [hlast]; omega)
    obtain ⟨h1, h2, h3⟩ := hrec
    have hshift : ∀ k : Nat, lastId s + 1 + 1 + (k : Int) = lastId s + 1 + ((k + 1 : Nat) : Int) := by
      intro k
      push_cast
      omega
    refine ⟨?_, ?_, ?_⟩
    · show (addSeq (addTask s stdin).1 more).1.ids = _
      rw [h1, hids, hlast, List.length_cons, List.range_succ_eq_map, List.map_cons, List.map_map,
        List.append_assoc]
      simp only [List.singleton_append, Nat.cast_zero, add_zero, Function.comp_def, hshift,
        Nat.succ_eq_add_one]
    · show (addTask s stdin).2 :: (addSeq (addTask s stdin).1 more).2 = _
      rw [h2, hid, hidl, hlast, List.length_cons, List.range_succ_eq_map, List.map_cons,
        List.map_map]
      simp only [Nat.cast_zero, add_zero, Function.comp_def, hshift, Nat.succ_eq_add_one]
    · show (addSeq (addTask s stdin).1 more).1.taskCount = _
      rw [h3, hcount, List.length_cons]
      omega

/-- C7 as stated fails on a store whose last task does not carry the largest
id: from the ids 3, 2 (the store Load builds from the file `3,0,t`, `2,0,t`)
a successful Add hands out 3 again. -/
theorem addTask_duplicate_id_after_unordered :
    (loadTasks State.init
        (some ['3', ',', '0', ',', 't', '\n', '2', ',', '0', ',', 't', '\n'])).1.view =
        unorderedStore.view ∧
      unorderedStore.ids = [3, 2] ∧
      (addSeq unorderedStore [['c', '\n']]).2 = [Msg.added 3] ∧
      (addSeq unorderedStore [['c', '\n']]).1.ids = [3, 2, 3] ∧
      ¬ (addSeq unorderedStore [['c', '\n']]).1.ids.Nodup := by
  decide

/-- C7, amended. Take a starting store whose ids are pairwise distinct and
whose last task carries the largest of them (the empty store is one), and a
run of Adds that all succeed without the id leaving the range of `int`.
Then the ids handed out are the successors of the last id in turn, each
strictly greater than the ones before it and than every id of the starting
store, and the ids of the resulting store are pairwise distinct. -/
theorem addSeq_ids_increasing (s : State) (inputs : List (List Char))
    (hsucc : ∀ m ∈ (addSeq s inputs).2, ∃ id, m = Msg.added id)
    (hdistinct : s.ids.Nodup) (hmax : ∀ x ∈ s.ids, x ≤ lastId s)
    (hlo : -2147483648 ≤ lastId s) (hhi : lastId s + inputs.length ≤ 2147483647) :
    (addSeq s inputs).1.ids =
        s.ids ++ (List.range inputs.length).map (fun k : Nat => lastId s + 1 + (k : Int)) ∧
      (addSeq s inputs).2 =
        (List.range inputs.length).map (fun k : Nat => Msg.added (lastId s + 1 + (k : Int))) ∧
      ((addSeq s inputs).1.ids.drop s.taskCount).Pairwise (fun a b => a < b) ∧
      (∀ x ∈ s.ids, ∀ y ∈ (addSeq s inputs).1.ids.drop s.taskCount, x < y) ∧
      (addSeq s inputs).1.ids.Nodup := by
  obtain ⟨h1, h2, -⟩ := addSeq_ids inputs s hsucc hlo hhi
  have hlen : s.ids.length = s.taskCount := by
    simp [State.ids, view_length]
  have hdrop : (addSeq s inputs).1.ids.drop s.taskCount =
      (List.range inputs.length).map (fun k : Nat => lastId s + 1 + (k : Int)) := by
    rw [h1, ← hlen, List.drop_left]
  have hpair : ((List.range inputs.length).map (fun k : Nat => lastId s + 1 + (k : Int))).Pairwise
      (fun a b => a < b) := by
    rw [List.pairwise_map]
    refine (List.pairwise_lt_range inputs.length).imp ?_
    intro a b hab
    have : (a : Int) < (b : Int) := by exact_mod_cast hab
    omega
  have hgt : ∀ x ∈ s.ids,
      ∀ y ∈ (List.range inputs.length).map (fun k : Nat => lastId s + 1 + (k : Int)), x < y := by
    intro x hx y hy
    obtain ⟨k, -, rfl⟩ := List.mem_map.1 hy
    have := hmax x hx
    have hk : (0 : Int) ≤ (k : Int) := Int.ofNat_nonneg k
    omega
  refine ⟨h1, h2, by rw [hdrop]; exact hpair, by rw [hdrop]; exact hgt, ?_⟩
  rw [h1, List.nodup_append]
  refine ⟨hdistinct, hpair.imp (fun h => ne_of_lt h), ?_⟩
  intro x hx hy
  exact lt_irrefl x (hgt x hx x hy)

/-! ## Parsing a record line -/

theorem isspace_of_isDigit {c : Char} (h : c.isDigit = true) : isspace c = false := by
  cases hs : isspace c with
  | false => rfl
  | true =>
    exfalso
    simp only [isspace, Bool.or_eq_true, decide_eq_true_eq] at hs
    rcases hs with ((((hs | hs) | hs) | hs) | hs) | hs <;>
      · subst hs
        exact absurd h (by decide)

theorem ne_minus_of_isDigit {c : Char} (h : c.isDigit = true) : c ≠ '-' := by
  intro e
  subst e
  exact absurd h (by decide)

theorem ne_plus_of_isDigit {c : Char} (h : c.isDigit = true) : c ≠ '+' := by
  intro e
  subst e
  exact absurd h (by decide)

theorem takeWhile_isDigit_append {ds : List Char} (h : ∀ c ∈ ds, c.isDigit = true)
    (rest : List Char) : (ds ++ ',' :: rest).takeWhile Char.isDigit = ds := by
  induction ds with
  | nil =>
    rw [List.nil_append, List.takeWhile_cons]
    rfl
  | cons d ds ih =>
    rw [List.cons_append, List.takeWhile_cons, h d (by simp)]
    simp [ih (fun c hc => h c (by simp [hc]))]

theorem dropWhile_isDigit_append {ds : List Char} (h : ∀ c ∈ ds, c.isDigit = true)
    (rest : List Char) : (ds ++ ',' :: rest).dropWhile Char.isDigit = ',' :: rest := by
  induction ds with
  | nil =>
    rw [List.nil_append, List.dropWhile_cons]
    rfl
  | cons d ds ih =>
    rw [List.cons_append, List.dropWhile_cons, h d (by simp)]
    simp [ih (fun c hc => h c (by simp [hc]))]

/-- `%d` on an optional minus sign and a run of digits followed by a comma:
the run is converted and the comma is the next character to read. -/
theorem scanInt_digits (neg : Bool) {ds : List Char} (hne : ds ≠ [])
    (hd : ∀ c ∈ ds, c.isDigit = true) (rest : List Char) :
    scanInt ((if neg then ['-'] else []) ++ ds ++ ',' :: rest) =
      some (wrapInt (if neg then -(digitsValue ds : Int) else (digitsValue ds : Int)),
        ',' :: rest) := by
  obtain ⟨d, ds2, rfl⟩ := List.exists_cons_of_ne_nil hne
  have hdd : d.isDigit = true := hd d (by simp)
  have htw := takeWhile_isDigit_append hd rest
  have hdw := dropWhile_isDigit_append hd rest
  cases neg with
  | true =>
    have hsp : (['-'] ++ (d :: ds2) ++ ',' :: rest).dropWhile isspace =
        '-' :: ((d :: ds2) ++ ',' :: rest) := by
      rw [List.append_assoc, List.singleton_append, List.dropWhile_cons]
      rfl
    simp only [scanInt, if_true, hsp, htw, hdw]
    simp
  | false =>
    have hsp : (([] : List Char) ++ (d :: ds2) ++ ',' :: rest).dropWhile isspace =
        d :: (ds2 ++ ',' :: rest) := by
      rw [List.nil_append, List.cons_append, List.dropWhile_cons, isspace_of_isDigit hdd]
      rfl
    have h3 : d :: (ds2 ++ ',' :: rest) = (d :: ds2) ++ ',' :: rest := rfl
    simp only [scanInt, Bool.false_eq_true, if_false, hsp, if_neg (ne_minus_of_isDigit hdd),
      if_neg (ne_plus_of_isDigit hdd)]
    rw [h3, htw, hdw]
    simp

theorem scanNotNewline_all {text : List Char} (hne : text ≠ []) (hnl : '\n' ∉ text) :
    ∃ r, scanNotNewline text = some (text, r) := by
  unfold scanNotNewline
  rw [takeWhile_ne_of_not_mem hnl]
  simp [hne]

/-- `sscanf` accepts a well-formed record line and returns its three fields. -/
theorem sscanfRecord_text {r : RecordLine} (h : r.WellFormed) :
    sscanfRecord r.text = some (r.idValue, if r.flag then 1 else 0, r.description) := by
  obtain ⟨hne, hd, hlo, hhi, hdne, hdnl, -, -, -⟩ := h
  have h1 := scanInt_digits r.negative hne hd
    ((if r.flag then '1' else '0') :: ',' :: r.description)
  have hwrap : wrapInt r.idValue = r.idValue := wrapInt_of_range hlo hhi
  have h2 : scanInt ((if r.flag then '1' else '0') :: ',' :: r.description) =
      some ((if r.flag then 1 else 0 : Int), ',' :: r.description) := by
    cases r.flag with
    | true =>
      have := @scanInt_digits false ['1'] (by simp) (by decide) r.description
      simpa [digitsValue, wrapInt] using this
    | false =>
      have := @scanInt_digits false ['0'] (by simp) (by decide) r.description
      simpa [digitsValue, wrapInt] using this
  obtain ⟨r4, h3⟩ := scanNotNewline_all hdne hdnl
  unfold sscanfRecord RecordLine.text
  rw [h1]
  simp only [scanChar, if_true, h2, h3]
  unfold RecordLine.idValue at hwrap ⊢
  rw [hwrap]

/-! ## The reading loop of Load -/

theorem fgets_line {line : List Char} (hnl : '\n' ∉ line) (hfit : line.length + 1 ≤ 265)
    (rest : List Char) :
    fgets (MAX_TASK_LEN + 10) (line ++ '\n' :: rest) = some (line ++ ['\n'], rest) := by
  have h := fgetsAux_line hnl rest (k := 265) (by omega)
  cases line with
  | nil => exact congrArg some h
  | cons c t => exact congrArg some h

theorem loadLoop_nil (fuel : Nat) (tasks : Nat → Task) (n : Nat) (out : List Msg) :
    loadLoop fuel [] tasks n out = (tasks, n, out) := by
  cases fuel <;> rfl

theorem RecordLine.text_no_char {r : RecordLine} {c : Char} (hd : c.isDigit = false)
    (h1 : c ≠ '-') (h2 : c ≠ ',') (hdig : ∀ d ∈ r.digits, d.isDigit = true)
    (hdesc : c ∉ r.description) : c ∉ r.text := by
  unfold RecordLine.text
  intro hmem
  simp only [List.mem_append, List.mem_cons] at hmem
  rcases hmem with (hm | hm) | hm | hm | hm | hm
  · by_cases hneg : r.negative = true
    · simp only [hneg, if_true, List.mem_singleton] at hm
      exact h1 hm
    · simp [hneg] at hm
  · rw [hdig c hm] at hd
    cases hd
  · exact h2 hm
  · by_cases hflag : r.flag = true
    · simp only [hflag, if_true] at hm
      subst hm
      exact absurd hd (by decide)
    · simp [hflag] at hm
      subst hm
      exact absurd hd (by decide)
  · exact h2 hm
  · exact hdesc hm

theorem RecordLine.WellFormed.no_newline {r : RecordLine} (h : r.WellFormed) :
    '\n' ∉ r.text :=
  RecordLine.text_no_char (by decide) (by decide) (by decide) h.2.1 h.2.2.2.2.2.1

theorem RecordLine.WellFormed.no_NUL {r : RecordLine} (h : r.WellFormed) :
    NUL ∉ r.text :=
  RecordLine.text_no_char (by decide) (by decide) (by decide) h.2.1 h.2.2.2.2.2.2.1

/-- One turn of the loop on a well-formed record line: the record is stored
in slot `taskCount`. -/
theorem loadLoop_record {r : RecordLine} (h : r.WellFormed) (fuel : Nat) (rest : List Char)
    (tasks : Nat → Task) {n : Nat} (hn : n < MAX_TASKS) (out : List Msg) :
    loadLoop (fuel + 1) (r.text ++ '\n' :: rest) tasks n out =
      loadLoop fuel rest (Function.update tasks n r.task) (n + 1) out := by
  have hfit : r.text.length + 1 ≤ 265 := h.2.2.2.2.2.2.2.2
  conv_lhs => rw [loadLoop]
  rw [fgets_line h.no_newline hfit rest]
  simp only [hn, if_true, stripNewline_line h.no_newline h.no_NUL, sscanfRecord_text h]
  congr 2
  unfold RecordLine.task
  cases r.flag <;> simp

/-- One turn of the loop on a line `sscanf` rejects: a warning, no store. -/
theorem loadLoop_malformed {bad : List Char} (hbad : sscanfRecord bad = none)
    (hnl : '\n' ∉ bad) (hnul : NUL ∉ bad) (hfit : bad.length + 1 ≤ 265)
    (fuel : Nat) (rest : List Char) (tasks : Nat → Task) {n : Nat} (hn : n < MAX_TASKS)
    (out : List Msg) :
    loadLoop (fuel + 1) (bad ++ '\n' :: rest) tasks n out =
      loadLoop fuel rest tasks n (out ++ [Msg.malformedLine bad]) := by
  conv_lhs => rw [loadLoop]
  rw [fgets_line hnl hfit rest]
  simp only [hn, if_true, stripNewline_line hnl hnul, hbad]

theorem fileText_append (a b : List (List Char)) :
    fileText (a ++ b) = fileText a ++ fileText b := by
  induction a with
  | nil => rfl
  | cons l a ih => simp [fileText, ih]

theorem length_le_length_fileText (lines : List (List Char)) :
    lines.length ≤ (fileText lines).length := by
  induction lines with
  | nil => simp
  | cons l a ih =>
    simp only [fileText, List.length_cons, List.length_append]
    omega

theorem view_storeAll (ts : List Task) :
    ∀ (tasks : Nat → Task) (n : Nat),
      State.view ⟨storeAll tasks n ts, n + ts.length⟩ = State.view ⟨tasks, n⟩ ++ ts := by
  induction ts with
  | nil => intro tasks n; simp [storeAll]
  | cons t ts ih =>
    intro tasks n
    have h := ih (Function.update tasks n t) (n + 1)
    have e : n + (t :: ts).length = n + 1 + ts.length := by simp; omega
    rw [e]
    show State.view ⟨storeAll (Function.update tasks n t) (n + 1) ts, n + 1 + ts.length⟩ = _
    rw [h, view_succ, view_congr (fun i hi => Function.update_noteq (by omega) _ _)]
    simp

/-- The loop on a run of well-formed record lines that fit the array:
the records are stored in the next slots, in file order. -/
theorem loadLoop_records (recs : List RecordLine) :
    ∀ (tasks : Nat → Task) (n : Nat) (fuel : Nat) (rest : List Char) (out : List Msg),
      (∀ r ∈ recs, r.WellFormed) → n + recs.length ≤ MAX_TASKS →
      loadLoop (recs.length + fuel) (fileText (recs.map RecordLine.text) ++ rest) tasks n out =
        loadLoop fuel rest (storeAll tasks n (recs.map RecordLine.task)) (n + recs.length) out := by
  induction recs with
  | nil =>
    intro tasks n fuel rest out _ _
    simp [fileText, storeAll]
  | cons r recs ih =>
    intro tasks n fuel rest out hwf hcap
    have hlen : (r :: recs).length + fuel = (recs.length + fuel) + 1 := by simp; omega
    have hn : n < MAX_TASKS := by simp at hcap; omega
    rw [hlen]
    show loadLoop (recs.length + fuel + 1)
        ((r.text ++ '\n' :: fileText (recs.map RecordLine.text)) ++ rest) tasks n out = _
    rw [List.append_assoc, List.cons_append,
      loadLoop_record (hwf r (by simp)) _ _ _ hn,
      ih _ _ _ _ _ (fun q hq => hwf q (by simp [hq])) (by simp at hcap; omega)]
    have e : n + 1 + recs.length = n + (r :: recs).length := by simp; omega
    rw [e]
    rfl

/-! ## The fuel of the reading loop -/

theorem fgetsAux_rest_le (k : Nat) : ∀ s : List Char, (fgetsAux k s).2.length ≤ s.length := by
  induction k with
  | zero => intro s; simp [fgetsAux]
  | succ k ih =>
    intro s
    cases s with
    | nil => simp [fgetsAux]
    | cons c t =>
      unfold fgetsAux
      by_cases hc : c = '\n'
      · simp [hc]
      · simp only [hc, if_false, List.length_cons]
        have := ih t
        omega

/-- A successful `fgets` into the line buffer takes at least one character
off the stream. -/
theorem fgets_rest_lt {stream buf rest : List Char}
    (h : fgets (MAX_TASK_LEN + 10) stream = some (buf, rest)) : rest.length < stream.length := by
  cases stream with
  | nil => cases h
  | cons c t =>
    have h2 : fgetsAux 265 (c :: t) = (buf, rest) := by
      simpa [fgets] using h
    unfold fgetsAux at h2
    by_cases hc : c = '\n'
    · simp only [hc, if_true, Prod.mk.injEq] at h2
      rw [← h2.2]
      simp
    · simp only [hc, if_false, Prod.mk.injEq] at h2
      rw [← h2.2]
      have := fgetsAux_rest_le 264 t
      simp only [List.length_cons]
      omega

/-- The loop never runs out of fuel: once the fuel covers the length of the
stream, more fuel changes nothing. -/
theorem loadLoop_fuel (fuel : Nat) :
    ∀ (stream : List Char) (tasks : Nat → Task) (n : Nat) (out : List Msg),
      stream.length ≤ fuel →
      loadLoop (fuel + 1) stream tasks n out = loadLoop fuel stream tasks n out := by
  induction fuel with
  | zero =>
    intro stream tasks n out h
    have : stream = [] := List.length_eq_zero.1 (by omega)
    subst this
    rw [loadLoop_nil, loadLoop_nil]
  | succ fuel ih =>
    intro stream tasks n out h
    rw [loadLoop, loadLoop]
    cases hfg : fgets (MAX_TASK_LEN + 10) stream with
    | none => rfl
    | some p =>
      obtain ⟨buf, rest⟩ := p
      have hlt := fgets_rest_lt hfg
      have hrest : rest.length ≤ fuel := by omega
      by_cases hn : n < MAX_TASKS
      · simp only [hn, if_true]
        cases sscanfRecord (stripNewline buf) with
        | none => exact ih rest tasks n _ hrest
        | some x => exact ih rest _ _ _ hrest
      · simp only [hn, if_false]

theorem loadLoop_fuel_ge (stream : List Char) (tasks : Nat → Task) (n : Nat) (out : List Msg)
    (extra : Nat) :
    loadLoop (stream.length + extra) stream tasks n out =
      loadLoop stream.length stream tasks n out := by
  induction extra with
  | zero => rfl
  | succ extra ih =>
    rw [← ih]
    exact loadLoop_fuel (stream.length + extra) stream tasks n out (by omega)

/-! ## Load and malformed lines -/

theorem loadLoop_full (fuel : Nat) (stream : List Char) (tasks : Nat → Task) {n : Nat}
    (hn : MAX_TASKS ≤ n) (out : List Msg) :
    loadLoop fuel stream tasks n out = (tasks, n, out) := by
  cases fuel with
  | zero => rfl
  | succ fuel =>
    rw [loadLoop]
    cases fgets (MAX_TASK_LEN + 10) stream with
    | none => rfl
    | some p =>
      have : ¬ n < MAX_TASKS := by omega
      simp only [this, if_false]

theorem scanInt_suffix {s r : List Char} {v : Int} (h : scanInt s = some (v, r)) : r <:+ s := by
  unfold scanInt at h
  simp only at h
  split at h
  · cases h
  · simp only [Option.some.injEq, Prod.mk.injEq] at h
    rw [← h.2]
    refine (List.dropWhile_suffix _).trans ?_
    refine List.IsSuffix.trans ?_ (List.dropWhile_suffix isspace)
    cases List.dropWhile isspace s with
    | nil => exact List.suffix_refl _
    | cons c t =>
      show (if c = '-' then (true, t) else if c = '+' then (false, t) else (false, c :: t)).2
        <:+ c :: t
      split
      · exact List.suffix_cons c t
      · split
        · exact List.suffix_cons c t
        · exact List.suffix_refl _

theorem scanChar_some {c : Char} {s r : List Char} (h : scanChar c s = some r) : s = c :: r := by
  cases s with
  | nil => cases h
  | cons d t =>
    unfold scanChar at h
    by_cases hd : d = c
    · simp only [hd, if_true, Option.some.injEq] at h
      rw [hd, h]
    · simp only [hd, if_false] at h
      cases h

/-- A line `sscanf` accepts holds at least two commas: a line with only two
comma-delimited fields, or with none, is malformed. -/
theorem sscanfRecord_none_of_few_commas {line : List Char} (h : line.count ',' < 2) :
    sscanfRecord line = none := by
  cases hres : sscanfRecord line with
  | none => rfl
  | some x =>
    exfalso
    unfold sscanfRecord at hres
    cases h1 : scanInt line with
    | none => simp [h1] at hres
    | some p1 =>
      obtain ⟨id, r1⟩ := p1
      cases h2 : scanChar ',' r1 with
      | none => simp [h1, h2] at hres
      | some r2 =>
        cases h3 : scanInt r2 with
        | none => simp [h1, h2, h3] at hres
        | some p3 =>
          obtain ⟨st, r3⟩ := p3
          cases h4 : scanChar ',' r3 with
          | none => simp [h1, h2, h3, h4] at hres
          | some r4 =>
            have e1 := (scanInt_suffix h1).sublist.count_le ','
            have e2 := scanChar_some h2
            have e3 := (scanInt_suffix h3).sublist.count_le ','
            have e4 := scanChar_some h4
            rw [e2, List.count_cons_self] at e1
            rw [e4, List.count_cons_self] at e3
            omega

set_option maxRecDepth 1000000 in
/-- C10 as stated fails in two ways. When the malformed line comes after 100
records, the loop stops at capacity, so the line is neither stored nor
reported. And a line that is not of the shape `<id>,<0 or 1>,<description>`
can still be accepted by `sscanf`: in the file `1,0,a`, `7,2,x` the second
line (flag 2) is stored as a completed task, and `+7,-5,x` is accepted too,
both without a warning. -/
theorem loadTasks_no_warning_after_capacity :
    (hundredRecords.length = 100 ∧ (∀ r ∈ hundredRecords, r.WellFormed) ∧
      sscanfRecord ['1', ',', '0'] = none ∧
      (loadTasks State.init
        (some (fileText (hundredRecords.map RecordLine.text ++ [['1', ',', '0']])))).2
        = [Msg.loaded 100]) ∧
    ((loadTasks State.init
        (some (fileText [['1', ',', '0', ',', 'a'], ['7', ',', '2', ',', 'x']]))).1.view =
        [{ id := 1, description := ['a'], completed := false },
         { id := 7, description := ['x'], completed := true }] ∧
      (loadTasks State.init
        (some (fileText [['1', ',', '0', ',', 'a'], ['7', ',', '2', ',', 'x']]))).2 =
        [Msg.loaded 2] ∧
      sscanfRecord ['+', '7', ',', '-', '5', ',', 'x'] = some (7, -5, ['x'])) := by
  refine ⟨⟨by decide, by decide, by decide, ?_⟩, by decide, by decide, by decide⟩
  decide

/-- C10, amended. Take a file of well-formed record lines (the id an
optional minus sign and digits that denote an `int`, the flag `0` or `1`,
the description non-empty, at most 255 characters), at most 100 of them, and
one further line that `sscanf` rejects, where no line holds a NUL character,
every line fits the line buffer (at most 264 characters) and the rejected
line comes before 100 records have been read. Then Load stores every
record, in file order and with its id, flag and description, stores nothing
for the rejected line, and prints exactly one warning, the one for that
line; the lines after it are loaded. Every line with fewer than two commas
is a line that `sscanf` rejects. -/
theorem loadTasks_skips_malformed_line (s : State) (pre post : List RecordLine)
    (bad : List Char)
    (hpre : ∀ r ∈ pre, r.WellFormed) (hpost : ∀ r ∈ post, r.WellFormed)
    (hbad : sscanfRecord bad = none) (hnl : '\n' ∉ bad) (hnul : NUL ∉ bad)
    (hfit : bad.length + 1 ≤ 265)
    (hcap : pre.length + post.length ≤ MAX_TASKS) (hbefore : pre.length < MAX_TASKS) :
    (loadTasks s (some (fileText
        (pre.map RecordLine.text ++ bad :: post.map RecordLine.text)))).1.view =
        (pre ++ post).map RecordLine.task ∧
      (loadTasks s (some (fileText
        (pre.map RecordLine.text ++ bad :: post.map RecordLine.text)))).1.taskCount =
        pre.length + post.length ∧
      (loadTasks s (some (fileText
        (pre.map RecordLine.text ++ bad :: post.map RecordLine.text)))).2 =
        [Msg.malformedLine bad, Msg.loaded (pre.length + post.length)] ∧
      (∀ line : List Char, line.count ',' < 2 → sscanfRecord line = none) := by
  have key : ∀ {A B C D : Prop}, (A ∧ B ∧ C) → D → A ∧ B ∧ C ∧ D :=
    fun h d => ⟨h.1, h.2.1, h.2.2, d⟩
  refine key ?_ (fun line h => sscanfRecord_none_of_few_commas h)
  have hlen := length_le_length_fileText
    (pre.map RecordLine.text ++ bad :: post.map RecordLine.text)
  simp only [List.length_append, List.length_map, List.length_cons] at hlen
  obtain ⟨extra, hextra⟩ := Nat.exists_eq_add_of_le hlen
  have hfuel : (fileText (pre.map RecordLine.text ++ bad :: post.map RecordLine.text)).length =
      pre.length + ((post.length + extra) + 1) := by omega
  have hfile : fileText (pre.map RecordLine.text ++ bad :: post.map RecordLine.text) =
      fileText (pre.map RecordLine.text) ++
        (bad ++ '\n' :: (fileText (post.map RecordLine.text) ++ [])) := by
    rw [fileText_append, List.append_nil]
    rfl
  have hrun : loadLoop
      (fileText (pre.map RecordLine.text ++ bad :: post.map RecordLine.text)).length
      (fileText (pre.map RecordLine.text ++ bad :: post.map RecordLine.text)) s.tasks 0 [] =
      (storeAll (storeAll s.tasks 0 (pre.map RecordLine.task)) (0 + pre.length)
          (post.map RecordLine.task),
        0 + pre.length + post.length, [Msg.malformedLine bad]) := by
    rw [hfuel, hfile, loadLoop_records pre _ _ _ _ _ hpre (by omega),
      loadLoop_malformed hbad hnl hnul hfit _ _ _ (by omega),
      loadLoop_records post _ _ _ _ _ hpost (by omega), loadLoop_nil]
    rfl
  unfold loadTasks
  simp only [hrun]
  refine ⟨?_, by omega, by simp⟩
  have h1 := view_storeAll (post.map RecordLine.task)
    (storeAll s.tasks 0 (pre.map RecordLine.task)) (0 + pre.length)
  have h2 := view_storeAll (pre.map RecordLine.task) s.tasks 0
  simp only [List.length_map] at h1 h2
  rw [h1, h2]
  simp [State.view]

/-! ## Printing and reading back an `int` -/

theorem digitChar_isDigit {d : Nat} (h : d < 10) : (digitChar d).isDigit = true := by
  interval_cases d <;> decide

theorem digitChar_value {d : Nat} (h : d < 10) : (digitChar d).toNat - 48 = d := by
  interval_cases d <;> decide

theorem digitsValue_append (a : List Char) (c : Char) :
    digitsValue (a ++ [c]) = digitsValue a * 10 + (c.toNat - 48) := by
  simp [digitsValue, List.foldl_append]

theorem natDigits_spec (fuel : Nat) :
    ∀ n, n < fuel → natDigits fuel n ≠ [] ∧ (∀ c ∈ natDigits fuel n, c.isDigit = true) ∧
      digitsValue (natDigits fuel n) = n := by
  induction fuel with
  | zero => intro n h; omega
  | succ fuel ih =>
    intro n hn
    unfold natDigits
    by_cases h10 : n < 10
    · simp only [h10, if_true]
      refine ⟨by simp, ?_, ?_⟩
      · intro c hc
        rw [List.mem_singleton.1 hc]
        exact digitChar_isDigit h10
      · simp [digitsValue, digitChar_value h10]
    · simp only [h10, if_false]
      have hdiv : n / 10 < fuel := by omega
      have hmod : n % 10 < 10 := Nat.mod_lt _ (by decide)
      obtain ⟨-, h2, h3⟩ := ih (n / 10) hdiv
      refine ⟨by simp, ?_, ?_⟩
      · intro c hc
        rcases List.mem_append.1 hc with hc | hc
        · exact h2 c hc
        · rw [List.mem_singleton.1 hc]
          exact digitChar_isDigit hmod
      · rw [digitsValue_append, h3, digitChar_value hmod]
        omega

theorem printInt_eq (i : Int) :
    printInt i = (if decide (i < 0) = true then ['-'] else []) ++
      natDigits (i.natAbs + 1) i.natAbs := by
  cases i with
  | ofNat n =>
    have : ¬ ((Int.ofNat n) < 0) := by simp
    simp [printInt, this]
  | negSucc n =>
    have : (Int.negSucc n) < 0 := Int.negSucc_lt_zero n
    simp [printInt, this, Int.natAbs]

theorem RecordLine.ofTask_idValue (t : Task) : (RecordLine.ofTask t).idValue = t.id := by
  unfold RecordLine.idValue RecordLine.ofTask
  simp only [(natDigits_spec (t.id.natAbs + 1) t.id.natAbs (by omega)).2.2]
  by_cases h : t.id < 0
  · simp only [h, decide_True, if_true]
    omega
  · simp only [h, decide_False, Bool.false_eq_true, if_false]
    omega

theorem RecordLine.ofTask_task (t : Task) : (RecordLine.ofTask t).task = t := by
  unfold RecordLine.task
  rw [RecordLine.ofTask_idValue]
  rfl

theorem formatRecord_eq (t : Task) : formatRecord t = (RecordLine.ofTask t).text ++ ['\n'] := by
  unfold formatRecord RecordLine.text RecordLine.ofTask
  rw [printInt_eq t.id]
  cases t.completed <;> simp [printInt, natDigits, digitChar]

/-- The data-model conditions on a task under which the line `saveTasks()`
writes for it is a well-formed record line. -/
theorem RecordLine.ofTask_wellFormed {t : Task}
    (hlo : -2147483648 ≤ t.id) (hhi : t.id ≤ 2147483647) (hne : t.description ≠ [])
    (hnl : '\n' ∉ t.description) (hnul : NUL ∉ t.description)
    (hlen : t.description.length ≤ 255) (hfit : (formatRecord t).length ≤ 265) :
    (RecordLine.ofTask t).WellFormed := by
  obtain ⟨h1, h2, -⟩ := natDigits_spec (t.id.natAbs + 1) t.id.natAbs (by omega)
  refine ⟨h1, h2, ?_, ?_, hne, hnl, hnul, hlen, ?_⟩
  · rw [RecordLine.ofTask_idValue]; exact hlo
  · rw [RecordLine.ofTask_idValue]; exact hhi
  · rw [formatRecord_eq] at hfit
    simpa using hfit

theorem saveLoop_eq (tasks : Nat → Task) (k : Nat) :
    ∀ i, saveLoop tasks i k =
      fileText (((List.range' i k).map tasks).map (fun t => (RecordLine.ofTask t).text)) := by
  induction k with
  | zero => intro i; rfl
  | succ k ih =>
    intro i
    rw [saveLoop, ih (i + 1), formatRecord_eq]
    simp [List.range'_succ, fileText]

theorem saveText_eq (s : State) :
    saveText s = fileText ((s.view.map RecordLine.ofTask).map RecordLine.text) := by
  unfold saveText State.view
  rw [saveLoop_eq, List.range_eq_range', List.map_map, List.map_map, List.map_map]
  rfl

/-- Save then Load gives back the store when every record fits the line
buffer: ids in the range of `int`, descriptions non-empty C strings of at
most 255 characters without a newline, and every written line, terminator
included, at most 265 characters long. Commas in descriptions do no harm.
No warning is printed. -/
theorem save_load_roundtrip_of_fits (s s0 : State) (hcount : s.taskCount ≤ MAX_TASKS)
    (hmodel : ∀ t ∈ s.view, -2147483648 ≤ t.id ∧ t.id ≤ 2147483647 ∧ t.description ≠ [] ∧
      '\n' ∉ t.description ∧ NUL ∉ t.description ∧ t.description.length ≤ 255)
    (hfit : ∀ t ∈ s.view, (formatRecord t).length ≤ 265) :
    (loadTasks s0 (some (saveText s))).1.view = s.view ∧
      (loadTasks s0 (some (saveText s))).1.taskCount = s.taskCount ∧
      (loadTasks s0 (some (saveText s))).2 = [Msg.loaded s.taskCount] := by
  have hwf : ∀ r ∈ s.view.map RecordLine.ofTask, r.WellFormed := by
    intro r hr
    obtain ⟨t, ht, rfl⟩ := List.mem_map.1 hr
    obtain ⟨a, b, c, d, e, f⟩ := hmodel t ht
    exact RecordLine.ofTask_wellFormed a b c d e f (hfit t ht)
  have hlen := length_le_length_fileText ((s.view.map RecordLine.ofTask).map RecordLine.text)
  simp only [List.length_map, view_length] at hlen
  obtain ⟨extra, hextra⟩ := Nat.exists_eq_add_of_le hlen
  have hl : (s.view.map RecordLine.ofTask).length = s.taskCount := by
    simp [view_length]
  have hrun : loadLoop (saveText s).length (saveText s) s0.tasks 0 [] =
      (storeAll s0.tasks 0 ((s.view.map RecordLine.ofTask).map RecordLine.task),
        0 + (s.view.map RecordLine.ofTask).length, []) := by
    have h := loadLoop_records (s.view.map RecordLine.ofTask) s0.tasks 0 extra [] [] hwf
      (by rw [hl]; omega)
    rw [saveText_eq, hextra, ← hl, ← List.append_nil (fileText _), h, loadLoop_nil]
  unfold loadTasks
  simp only [hrun, hl]
  refine ⟨?_, by omega, by simp⟩
  have h2 := view_storeAll ((s.view.map RecordLine.ofTask).map RecordLine.task) s0.tasks 0
  simp only [List.length_map, view_length] at h2
  rw [h2]
  simp [State.view, RecordLine.ofTask_task, Function.comp_def]

/-! ## Save then Load on a long record -/

set_option maxRecDepth 1000000 in
/-- C1 fails on the code for a record longer than the line buffer of
`loadTasks()`. The store below meets the data model (two tasks, descriptions
non-empty, at most 255 characters, no comma, no newline, no NUL); the text
Save writes for it comes back from Load with the second description cut to 254
characters, the cut-off character being reported as a malformed line. -/
theorem save_load_truncates_long_record :
    longRecordStore.view =
        [{ id := 9999999, description := ['x'], completed := false },
         { id := 10000000, description := List.replicate 255 'a', completed := false }] ∧
      (∀ t ∈ longRecordStore.view, t.description ≠ [] ∧ t.description.length ≤ 255 ∧
        ',' ∉ t.description ∧ '\n' ∉ t.description ∧ NUL ∉ t.description) ∧
      (saveText longRecordStore).length = 279 ∧
      (loadTasks State.init (some (saveText longRecordStore))).1.view =
        [{ id := 9999999, description := ['x'], completed := false },
         { id := 10000000, description := List.replicate 254 'a', completed := false }] ∧
      (loadTasks State.init (some (saveText longRecordStore))).2 =
        [Msg.malformedLine ['a'], Msg.loaded 2] ∧
      (loadTasks State.init (some (saveText longRecordStore))).1.view ≠ longRecordStore.view := by
  refine ⟨by decide, by decide, by decide, by decide, by decide, by decide⟩

/-! ## Instances of the theorems on sample data -/

/-- Deleting id 2 from the sample store of ids 1, 2, 3. -/
theorem deleteTask_removes_first_match_witness :
    (∃ t ∈ sampleStore.view, t.id = 2) ∧
      ∃ i, i < sampleStore.taskCount ∧
        (deleteTask sampleStore (some 2)).2 = Msg.deleted 2 ∧
        (deleteTask sampleStore (some 2)).1.taskCount + 1 = sampleStore.taskCount ∧
        (deleteTask sampleStore (some 2)).1.view = sampleStore.view.eraseIdx i := by
  have h : ∃ t ∈ sampleStore.view, t.id = 2 := ⟨sampleStore.tasks 1, by decide, by decide⟩
  obtain ⟨i, h1, -, -, h2, h3, h4, -⟩ := deleteTask_removes_first_match sampleStore 2 h
  exact ⟨h, i, h1, h2, h3, h4⟩

/-- Deleting the absent id 7 from the sample store. -/
theorem deleteTask_absent_id_witness :
    (∀ t ∈ sampleStore.view, t.id ≠ 7) ∧ (deleteTask sampleStore (some 7)).1 = sampleStore :=
  ⟨by decide, (deleteTask_absent_id sampleStore 7 (by decide)).1⟩

/-- Completing id 3 in the sample store. -/
theorem markTaskComplete_sets_first_match_witness :
    (∃ t ∈ sampleStore.view, t.id = 3) ∧
      ∃ i, i < sampleStore.taskCount ∧
        (markTaskComplete sampleStore (some 3)).2 = Msg.markedComplete 3 ∧
        (markTaskComplete sampleStore (some 3)).1.taskCount = sampleStore.taskCount ∧
        (∀ j, j ≠ i → (markTaskComplete sampleStore (some 3)).1.tasks j = sampleStore.tasks j) := by
  have h : ∃ t ∈ sampleStore.view, t.id = 3 := ⟨sampleStore.tasks 2, by decide, by decide⟩
  obtain ⟨i, h1, -, -, h2, h3, -, h4, -⟩ := markTaskComplete_sets_first_match sampleStore 3 h
  exact ⟨h, i, h1, h2, h3, h4⟩

/-- Completing id 1 twice in the sample store. -/
theorem markTaskComplete_idempotent_witness :
    (∃ t ∈ sampleStore.view, t.id = 1) ∧
      markTaskComplete (markTaskComplete sampleStore (some 1)).1 (some 1) =
        ((markTaskComplete sampleStore (some 1)).1, Msg.markedComplete 1) :=
  ⟨⟨sampleStore.tasks 0, by decide, by decide⟩,
    (markTaskComplete_idempotent sampleStore 1 ⟨sampleStore.tasks 0, by decide, by decide⟩).2⟩

/-- Adding the line `milk` to the sample store. -/
theorem addTask_appends_witness :
    sampleStore.taskCount < MAX_TASKS ∧
      ∃ id : Int,
        (addTask sampleStore (['m', 'i', 'l', 'k'] ++ '\n' :: [])).2 = Msg.added id ∧
        (addTask sampleStore (['m', 'i', 'l', 'k'] ++ '\n' :: [])).1.view =
          sampleStore.view ++ [{ id := id, description := ['m', 'i', 'l', 'k'], completed := false }] := by
  obtain ⟨id, h1, -, h2, -, -⟩ := addTask_appends sampleStore ['m', 'i', 'l', 'k'] []
    (by decide) (by decide) (by decide) (by decide) (by decide)
  exact ⟨by decide, id, h1, h2⟩

/-- Two Adds on the sample store hand out the ids 4 and 5. -/
theorem addSeq_ids_increasing_witness :
    sampleStore.ids.Nodup ∧
      (addSeq sampleStore [['a', '\n'], ['b', '\n']]).1.ids = [1, 2, 3, 4, 5] ∧
      (addSeq sampleStore [['a', '\n'], ['b', '\n']]).1.ids.Nodup := by
  have hmsgs : (addSeq sampleStore [['a', '\n'], ['b', '\n']]).2 = [Msg.added 4, Msg.added 5] := by
    decide
  have h := addSeq_ids_increasing sampleStore [['a', '\n'], ['b', '\n']]
    (by
      intro m hm
      rw [hmsgs] at hm
      simp only [List.mem_cons, List.mem_singleton, List.not_mem_nil, or_false] at hm
      rcases hm with rfl | rfl
      · exact ⟨4, rfl⟩
      · exact ⟨5, rfl⟩)
    (by decide) (by decide) (by decide) (by decide)
  exact ⟨by decide, by decide, h.2.2.2.2⟩

/-- Adding to the store of 100 tasks. -/
theorem addTask_at_capacity_witness :
    fullStore.taskCount = MAX_TASKS ∧ addTask fullStore ['x', '\n'] = (fullStore, Msg.listFull) :=
  ⟨rfl, addTask_at_capacity fullStore ['x', '\n'] rfl⟩

/-- Loading the three lines `1,0,milk`, `1,0` and `-7,1,a,b`. -/
theorem loadTasks_skips_malformed_line_witness :
    sscanfRecord ['1', ',', '0'] = none ∧
      (loadTasks State.init (some (fileText
        ((sampleRecords.take 1).map RecordLine.text ++
          ['1', ',', '0'] :: (sampleRecords.drop 1).map RecordLine.text)))).1.view =
        (sampleRecords.take 1 ++ sampleRecords.drop 1).map RecordLine.task ∧
      (loadTasks State.init (some (fileText
        ((sampleRecords.take 1).map RecordLine.text ++
          ['1', ',', '0'] :: (sampleRecords.drop 1).map RecordLine.text)))).2 =
        [Msg.malformedLine ['1', ',', '0'], Msg.loaded 2] := by
  have h := loadTasks_skips_malformed_line State.init (sampleRecords.take 1)
    (sampleRecords.drop 1) ['1', ',', '0'] (by decide) (by decide)
    (sscanfRecord_none_of_few_commas (by decide)) (by decide) (by decide) (by decide)
    (by decide) (by decide)
  exact ⟨by decide, h.1, h.2.2.1⟩

/-! ## The text Save writes -/

theorem digitChar_eq_core {d : Nat} (h : d < 10) : Nat.digitChar d = digitChar d := by
  interval_cases d <;> rfl

theorem toDigitsCore_eq (fuel : Nat) :
    ∀ (n : Nat) (ds : List Char), n < fuel →
      Nat.toDigitsCore 10 fuel n ds = natDigits fuel n ++ ds := by
  induction fuel with
  | zero => intro n ds h; omega
  | succ fuel ih =>
    intro n ds hn
    unfold Nat.toDigitsCore natDigits
    have hmod : n % 10 < 10 := Nat.mod_lt _ (by decide)
    by_cases h10 : n < 10
    · have h0 : n / 10 = 0 := by omega
      have hm : n % 10 = n := by omega
      simp only [h0, h10, if_true, hm, digitChar_eq_core h10]
      rfl
    · have h0 : ¬ n / 10 = 0 := by omega
      simp only [h0, h10, if_false]
      rw [ih (n / 10) _ (by omega), digitChar_eq_core hmod]
      simp

theorem printInt_eq_decimal (i : Int) : printInt i = decimal i := by
  rw [printInt_eq]
  unfold decimal Nat.toDigits
  rw [toDigitsCore_eq _ _ _ (by omega)]
  by_cases h : i < 0 <;> simp [h]

theorem formatRecord_eq_specRecord (t : Task) : formatRecord t = specRecord t := by
  unfold formatRecord specRecord
  rw [printInt_eq_decimal]
  cases t.completed <;> simp [printInt, natDigits, digitChar]

theorem saveLoop_eq_flatten (tasks : Nat → Task) (k : Nat) :
    ∀ i, saveLoop tasks i k = ((List.range' i k).map (fun j => specRecord (tasks j))).flatten := by
  induction k with
  | zero => intro i; rfl
  | succ k ih =>
    intro i
    rw [saveLoop, ih (i + 1), formatRecord_eq_specRecord]
    simp [List.range'_succ]

/-- C11. Once the file is open, `saveTasks()` writes exactly the records of
the live tasks in store order, each of the form decimal id, comma, `1` or
`0`, comma, description, newline, with nothing before, between or after
them; a store without tasks is written as the empty file. -/
theorem saveTasks_writes_spec_records (s : State) (file : Option (List Char)) :
    saveText s = specSaveText s.view ∧
      saveTasks s true file = (some (specSaveText s.view), []) ∧
      (s.taskCount = 0 → saveText s = []) := by
  have h : saveText s = specSaveText s.view := by
    unfold saveText specSaveText State.view
    rw [saveLoop_eq_flatten, List.range_eq_range', List.map_map]
    rfl
  refine ⟨h, ?_, ?_⟩
  · simp [saveTasks, h]
  · intro h0
    unfold saveText
    rw [h0]
    rfl

/-! ## The worked example of the specification -/

/-- C12. The worked example, step by step from the empty store: Add of
"Buy milk" gives task 1, not completed; Add of "Walk dog" gives task 2;
Complete(1) marks task 1 and leaves task 2 as it was; Delete(1) leaves only
task 2, still with id 2; Save writes `2,0,Walk dog` and Load of that file
gives exactly the task 2, "Walk dog", not completed. -/
theorem worked_example :
    (addTask State.init ['B', 'u', 'y', ' ', 'm', 'i', 'l', 'k', '\n']).2 = Msg.added 1 ∧
      (run State.init [Op.add ['B', 'u', 'y', ' ', 'm', 'i', 'l', 'k', '\n']]).view =
        [{ id := 1, description := ['B', 'u', 'y', ' ', 'm', 'i', 'l', 'k'], completed := false }] ∧
      trace State.init
          [Op.add ['B', 'u', 'y', ' ', 'm', 'i', 'l', 'k', '\n'],
           Op.add ['W', 'a', 'l', 'k', ' ', 'd', 'o', 'g', '\n'],
           Op.complete (some 1), Op.delete (some 1)] =
        [Msg.added 1, Msg.added 2, Msg.markedComplete 1, Msg.deleted 1] ∧
      (run State.init
          [Op.add ['B', 'u', 'y', ' ', 'm', 'i', 'l', 'k', '\n'],
           Op.add ['W', 'a', 'l', 'k', ' ', 'd', 'o', 'g', '\n']]).view =
        [{ id := 1, description := ['B', 'u', 'y', ' ', 'm', 'i', 'l', 'k'], completed := false },
         { id := 2, description := ['W', 'a', 'l', 'k', ' ', 'd', 'o', 'g'], completed := false }] ∧
      (run State.init
          [Op.add ['B', 'u', 'y', ' ', 'm', 'i', 'l', 'k', '\n'],
           Op.add ['W', 'a', 'l', 'k', ' ', 'd', 'o', 'g', '\n'],
           Op.complete (some 1)]).view =
        [{ id := 1, description := ['B', 'u', 'y', ' ', 'm', 'i', 'l', 'k'], completed := true },
         { id := 2, description := ['W', 'a', 'l', 'k', ' ', 'd', 'o', 'g'], completed := false }] ∧
      (run State.init
          [Op.add ['B', 'u', 'y', ' ', 'm', 'i', 'l', 'k', '\n'],
           Op.add ['W', 'a', 'l', 'k', ' ', 'd', 'o', 'g', '\n'],
           Op.complete (some 1), Op.delete (some 1)]).view =
        [{ id := 2, description := ['W', 'a', 'l', 'k', ' ', 'd', 'o', 'g'], completed := false }] ∧
      saveText (run State.init
          [Op.add ['B', 'u', 'y', ' ', 'm', 'i', 'l', 'k', '\n'],
           Op.add ['W', 'a', 'l', 'k', ' ', 'd', 'o', 'g', '\n'],
           Op.complete (some 1), Op.delete (some 1)]) =
        ['2', ',', '0', ',', 'W', 'a', 'l', 'k', ' ', 'd', 'o', 'g', '\n'] ∧
      (loadTasks State.init (some (saveText (run State.init
          [Op.add ['B', 'u', 'y', ' ', 'm', 'i', 'l', 'k', '\n'],
           Op.add ['W', 'a', 'l', 'k', ' ', 'd', 'o', 'g', '\n'],
           Op.complete (some 1), Op.delete (some 1)])))).1.view =
        [{ id := 2, description := ['W', 'a', 'l', 'k', ' ', 'd', 'o', 'g'], completed := false }] ∧
      (loadTasks State.init (some (saveText (run State.init
          [Op.add ['B', 'u', 'y', ' ', 'm', 'i', 'l', 'k', '\n'],
           Op.add ['W', 'a', 'l', 'k', ' ', 'd', 'o', 'g', '\n'],
           Op.complete (some 1), Op.delete (some 1)])))).2 = [Msg.loaded 1] := by
  refine ⟨by decide, by decide, by decide, by decide, by decide, by decide, by decide,
    by decide, by decide⟩

/-! ## Load without a file -/

/-- C15. When the tasks file cannot be opened, `loadTasks()` leaves the
state as it is and prints one notice in yellow, no error or warning; at
program start, the only place it is called, the store is therefore empty. -/
theorem loadTasks_missing_file :
    (∀ s : State, loadTasks s none = (s, [Msg.noFile])) ∧
      (loadTasks State.init none).1.taskCount = 0 ∧
      (loadTasks State.init none).1.view = [] ∧
      (∀ m ∈ (loadTasks State.init none).2, m.colour ≠ Colour.red) := by
  refine ⟨fun s => rfl, rfl, rfl, ?_⟩
  intro m hm
  have : m = Msg.noFile := by simpa [loadTasks] using hm
  subst this
  decide

/-! ## Capacity -/

theorem loadLoop_count_le (fuel : Nat) :
    ∀ (stream : List Char) (tasks : Nat → Task) (n : Nat) (out : List Msg),
      n ≤ MAX_TASKS → (loadLoop fuel stream tasks n out).2.1 ≤ MAX_TASKS := by
  induction fuel with
  | zero => intro stream tasks n out h; exact h
  | succ fuel ih =>
    intro stream tasks n out h
    rw [loadLoop]
    cases fgets (MAX_TASK_LEN + 10) stream with
    | none => exact h
    | some p =>
      obtain ⟨buf, rest⟩ := p
      by_cases hn : n < MAX_TASKS
      · simp only [hn, if_true]
        cases sscanfRecord (stripNewline buf) with
        | none => exact ih rest tasks n _ h
        | some x => exact ih rest _ (n + 1) _ hn
      · simp only [hn, if_false]
        exact h

theorem markTaskComplete_taskCount (s : State) (input : Option Int) :
    (markTaskComplete s input).1.taskCount = s.taskCount := by
  unfold markTaskComplete
  by_cases h0 : s.taskCount = 0
  · simp [h0]
  · simp only [h0, if_false]
    cases input with
    | none => rfl
    | some taskId =>
      dsimp only
      cases markLoop s.tasks taskId 0 s.taskCount <;> rfl

theorem deleteTask_taskCount_le (s : State) (input : Option Int) :
    (deleteTask s input).1.taskCount ≤ s.taskCount := by
  unfold deleteTask
  by_cases h0 : s.taskCount = 0
  · simp [h0]
  · simp only [h0, if_false]
    cases input with
    | none => exact le_refl _
    | some taskId =>
      dsimp only
      cases findLoop s.tasks taskId 0 s.taskCount with
      | none => exact le_refl _
      | some i => exact Nat.sub_le _ _

theorem addTask_taskCount_le (s : State) (stdin : List Char) (h : s.taskCount ≤ MAX_TASKS) :
    (addTask s stdin).1.taskCount ≤ MAX_TASKS := by
  unfold addTask
  by_cases hfull : s.taskCount ≥ MAX_TASKS
  · rw [if_pos hfull]; exact h
  · rw [if_neg hfull]
    cases fgets MAX_TASK_LEN stdin with
    | none => exact h
    | some p =>
      obtain ⟨buf, rest⟩ := p
      by_cases hlen : (stripNewline buf).length = 0
      · simp only [hlen, if_true]; exact h
      · simp only [hlen, if_false]
        show s.taskCount + 1 ≤ MAX_TASKS
        omega

/-- C17. Load of any file content, from any state, ends with at most 100
tasks, and from a store of at most 100 tasks every Add, Complete and Delete,
whatever its input, yields a store of at most 100 tasks. -/
theorem taskCount_le_capacity (s : State) (h : s.taskCount ≤ MAX_TASKS) :
    (∀ (s0 : State) (content : List Char),
        (loadTasks s0 (some content)).1.taskCount ≤ MAX_TASKS ∧
        (loadTasks s0 (some content)).1.view.length ≤ MAX_TASKS) ∧
      (∀ stdin, (addTask s stdin).1.taskCount ≤ MAX_TASKS) ∧
      (∀ input, (markTaskComplete s input).1.taskCount ≤ MAX_TASKS) ∧
      (∀ input, (deleteTask s input).1.taskCount ≤ MAX_TASKS) ∧
      (loadTasks s none).1.taskCount ≤ MAX_TASKS := by
  refine ⟨?_, ?_, ?_, ?_, h⟩
  · intro s0 content
    have := loadLoop_count_le content.length content s0.tasks 0 [] (Nat.zero_le _)
    refine ⟨this, ?_⟩
    rw [view_length]
    exact this
  · intro stdin
    exact addTask_taskCount_le s stdin h
  · intro input
    rw [markTaskComplete_taskCount]
    exact h
  · intro input
    exact le_trans (deleteTask_taskCount_le s input) h

set_option maxRecDepth 1000000 in
/-- The capacity bound on the full store, and Load of a file of 101
well-formed lines, which stops after 100 records. -/
theorem taskCount_le_capacity_witness :
    fullStore.taskCount ≤ MAX_TASKS ∧
      (addTask fullStore ['x', '\n']).1.taskCount ≤ MAX_TASKS ∧
      (loadTasks State.init (some (fileText (hundredRecords.map RecordLine.text ++
        [['1', '0', '1', ',', '0', ',', 'a']])))).1.taskCount = 100 := by
  have h := taskCount_le_capacity fullStore (by decide)
  exact ⟨by decide, h.2.1 ['x', '\n'], by decide⟩

/-! ## Length of descriptions -/

theorem fgetsAux_length_le (k : Nat) : ∀ s : List Char, (fgetsAux k s).1.length ≤ k := by
  induction k with
  | zero => intro s; simp [fgetsAux]
  | succ k ih =>
    intro s
    cases s with
    | nil => simp [fgetsAux]
    | cons c t =>
      unfold fgetsAux
      by_cases hc : c = '\n'
      · simp [hc]
      · simp only [hc, if_false, List.length_cons]
        have := ih t
        omega

theorem stripNewline_length_le (buf : List Char) : (stripNewline buf).length ≤ buf.length := by
  unfold stripNewline cstr
  exact le_trans (List.takeWhile_sublist _).length_le (List.takeWhile_sublist _).length_le

/-- The description of a task that `addTask()` appends is non-empty and at
most 255 characters long, whatever the input line. -/
theorem addTask_description_bounds {s : State} {stdin : List Char} {id : Int}
    (h : (addTask s stdin).2 = Msg.added id) :
    ((addTask s stdin).1.tasks s.taskCount).description ≠ [] ∧
      ((addTask s stdin).1.tasks s.taskCount).description.length ≤ 255 := by
  unfold addTask at h ⊢
  by_cases hfull : s.taskCount ≥ MAX_TASKS
  · rw [if_pos hfull] at h
    cases h
  · rw [if_neg hfull] at h ⊢
    cases hfg : fgets MAX_TASK_LEN stdin with
    | none =>
      rw [hfg] at h
      cases h
    | some p =>
      obtain ⟨buf, rest⟩ := p
      rw [hfg] at h
      have hbuf : buf.length ≤ 255 := by
        cases stdin with
        | nil => cases hfg
        | cons c t =>
          have e : fgetsAux 255 (c :: t) = (buf, rest) := by simpa [fgets] using hfg
          have := fgetsAux_length_le 255 (c :: t)
          rw [e] at this
          exact this
      by_cases hlen : (stripNewline buf).length = 0
      · simp only [hlen, if_true] at h
        cases h
      · simp only [hlen, if_false, Function.update_same]
        refine ⟨fun e => hlen (by rw [e]; rfl), ?_⟩
        exact le_trans (stripNewline_length_le buf) hbuf

set_option maxRecDepth 1000000 in
/-- C18 fails on the code for Load. Every task a successful Add appends has
a non-empty description of at most 255 characters, but `sscanf` reads the
third field with `%[^\n]`, without a width: from the one-line file `1,0,`
followed by 256 times `a`, Load stores a description of 256 characters,
one more than the array `description[MAX_TASK_LEN]` holds with its
terminator. -/
theorem loadTasks_description_too_long :
    (∀ (s : State) (stdin : List Char) (id : Int), (addTask s stdin).2 = Msg.added id →
        ((addTask s stdin).1.tasks s.taskCount).description ≠ [] ∧
        ((addTask s stdin).1.tasks s.taskCount).description.length ≤ 255) ∧
      longDescriptionFile.length = 261 ∧
      (loadTasks State.init (some longDescriptionFile)).1.view =
        [{ id := 1, description := List.replicate 256 'a', completed := false }] ∧
      (loadTasks State.init (some longDescriptionFile)).2 = [Msg.loaded 1] ∧
      ¬ (∀ t ∈ (loadTasks State.init (some longDescriptionFile)).1.view,
          t.description.length ≤ 255) := by
  refine ⟨fun s stdin id h => addTask_description_bounds h, by decide, by decide, by decide,
    by decide⟩

/-! ## Commas in descriptions -/

/-- C19 as stated fails: a store whose first description is `a,b,c` comes
back from Save and Load as it was, both tasks with all their fields, and
no warning is printed. -/
theorem save_load_comma_store :
    (∃ t ∈ commaStore.view, ',' ∈ t.description) ∧
      saveText commaStore =
        ['1', ',', '1', ',', 'a', ',', 'b', ',', 'c', '\n', '2', ',', '0', ',', 'd', '\n'] ∧
      (loadTasks State.init (some (saveText commaStore))).1.view = commaStore.view ∧
      (loadTasks State.init (some (saveText commaStore))).2 = [Msg.loaded 2] := by
  refine ⟨?_, by decide, by decide, by decide⟩
  exact ⟨commaStore.tasks 0, by decide, by decide⟩

/-- C19, amended. A comma in a description does no harm: for every store
with at most 100 tasks that holds a task whose description contains a comma,
with ids in the range of `int`, descriptions that are non-empty C strings of
at most 255 characters without a newline, and records that fit the line
buffer, Save followed by Load gives back the same tasks in the same order,
and no malformed-line warning is printed. -/
theorem save_load_keeps_commas (s s0 : State) (hcount : s.taskCount ≤ MAX_TASKS)
    (_hcomma : ∃ t ∈ s.view, ',' ∈ t.description)
    (hmodel : ∀ t ∈ s.view, -2147483648 ≤ t.id ∧ t.id ≤ 2147483647 ∧ t.description ≠ [] ∧
      '\n' ∉ t.description ∧ NUL ∉ t.description ∧ t.description.length ≤ 255)
    (hfit : ∀ t ∈ s.view, (formatRecord t).length ≤ 265) :
    (loadTasks s0 (some (saveText s))).1.view = s.view ∧
      (loadTasks s0 (some (saveText s))).1.taskCount = s.taskCount ∧
      (loadTasks s0 (some (saveText s))).2 = [Msg.loaded s.taskCount] :=
  save_load_roundtrip_of_fits s s0 hcount hmodel hfit

/-- The comma store comes back from Save and Load. -/
theorem save_load_keeps_commas_witness :
    (∃ t ∈ commaStore.view, ',' ∈ t.description) ∧
      (loadTasks State.init (some (saveText commaStore))).1.view = commaStore.view :=
  ⟨⟨commaStore.tasks 0, by decide, by decide⟩,
    (save_load_keeps_commas commaStore State.init (by decide)
      ⟨commaStore.tasks 0, by decide, by decide⟩ (by decide) (by decide)).1⟩

/-! ## The effect of one operation on the ids -/

theorem ids_eq (s : State) : s.ids = (List.range s.taskCount).map (fun i => (s.tasks i).id) := by
  simp [State.ids, State.view]

theorem mem_ids {s : State} {x : Int} : x ∈ s.ids ↔ ∃ i, i < s.taskCount ∧ (s.tasks i).id = x := by
  simp [ids_eq]

/-- An `addTask()` that does not report success leaves the count and every
live slot as they were. -/
theorem addTask_not_added (s : State) (stdin : List Char)
    (h : ∀ id, (addTask s stdin).2 ≠ Msg.added id) :
    (addTask s stdin).1.taskCount = s.taskCount ∧
      ∀ i, i < s.taskCount → (addTask s stdin).1.tasks i = s.tasks i := by
  unfold addTask at h ⊢
  by_cases hfull : s.taskCount ≥ MAX_TASKS
  · rw [if_pos hfull]
    exact ⟨rfl, fun _ _ => rfl⟩
  · rw [if_neg hfull] at h ⊢
    generalize fgets MAX_TASK_LEN stdin = r at h ⊢
    cases r with
    | none => exact ⟨rfl, fun _ _ => rfl⟩
    | some p =>
      obtain ⟨buf, rest⟩ := p
      by_cases hlen : (stripNewline buf).length = 0
      · refine ⟨by simp only [hlen, if_true], fun i hi => ?_⟩
        simp only [hlen, if_true]
        exact Function.update_noteq (by omega) _ _
      · simp only [hlen, if_false] at h
        exact absurd rfl (h _)

theorem markTaskComplete_id (s : State) (input : Option Int) (j : Nat) :
    ((markTaskComplete s input).1.tasks j).id = (s.tasks j).id := by
  unfold markTaskComplete
  by_cases h0 : s.taskCount = 0
  · simp [h0]
  · simp only [h0, if_false]
    cases input with
    | none => rfl
    | some taskId =>
      dsimp only
      rw [markLoop_eq]
      cases findLoop s.tasks taskId 0 s.taskCount with
      | none => rfl
      | some i =>
        show (Function.update s.tasks i { s.tasks i with completed := true } j).id = _
        by_cases hji : j = i
        · subst hji
          simp
        · rw [Function.update_noteq hji]

theorem markTaskComplete_ids (s : State) (input : Option Int) :
    (markTaskComplete s input).1.ids = s.ids := by
  rw [ids_eq, ids_eq, markTaskComplete_taskCount]
  apply List.map_congr_left
  intro j _
  exact markTaskComplete_id s input j

/-- `deleteTask()` either returns the state it was given or removes the
slot `i` it found by shifting the later slots down. -/
theorem deleteTask_cases (s : State) (input : Option Int) :
    (deleteTask s input).1 = s ∨
      ∃ i, i < s.taskCount ∧ (deleteTask s input).1 =
        { tasks := shiftLoop s.tasks i (s.taskCount - 1 - i), taskCount := s.taskCount - 1 } := by
  unfold deleteTask
  by_cases h0 : s.taskCount = 0
  · simp [h0]
  · simp only [h0, if_false]
    cases input with
    | none => exact Or.inl rfl
    | some taskId =>
      dsimp only
      cases hf : findLoop s.tasks taskId 0 s.taskCount with
      | none => exact Or.inl rfl
      | some i =>
        refine Or.inr ⟨i, ?_, rfl⟩
        have := (findLoop_some hf).2.1
        omega

theorem view_shift (s : State) {i : Nat} (hi : i < s.taskCount) :
    State.view ⟨shiftLoop s.tasks i (s.taskCount - 1 - i), s.taskCount - 1⟩ =
      s.view.eraseIdx i := by
  apply List.ext_getElem?
  intro j
  rw [view_getElem?, List.getElem?_eraseIdx, view_getElem?, view_getElem?]
  show (if j < s.taskCount - 1 then some (shiftLoop s.tasks i (s.taskCount - 1 - i) j) else none)
    = _
  rw [shiftLoop_apply]
  by_cases hji : j < i
  · have h1 : j < s.taskCount - 1 := by omega
    have h2 : j < s.taskCount := by omega
    have h3 : ¬ (i ≤ j ∧ j < i + (s.taskCount - 1 - i)) := by omega
    simp only [hji, h1, h2, h3, if_true, if_false]
  · by_cases hjn : j < s.taskCount - 1
    · have h2 : j + 1 < s.taskCount := by omega
      have h3 : i ≤ j ∧ j < i + (s.taskCount - 1 - i) := by omega
      simp only [hji, hjn, h2, h3, and_self, if_true, if_false]
    · have h2 : ¬ (j + 1 < s.taskCount) := by omega
      simp only [hji, hjn, h2, if_false]

/-- The ids after `deleteTask()` are the ids before it with at most one
position erased. -/
theorem deleteTask_ids_sublist (s : State) (input : Option Int) :
    (deleteTask s input).1.ids.Sublist s.ids := by
  rcases deleteTask_cases s input with h | ⟨i, hi, h⟩
  · rw [h]
  · rw [h]
    unfold State.ids
    rw [view_shift s hi]
    exact (List.eraseIdx_sublist _ _).map _

/-! ## Ids along a sequence of operations -/

/-- The id a successful `addTask()` assigns when the last id is not the
largest `int`: the successor of the last live id, 1 on the empty store. -/
theorem addTask_added_id {s : State} {stdin : List Char} {id : Int}
    (h : (addTask s stdin).2 = Msg.added id)
    (hlo : -2147483648 ≤ lastId s) (hhi : lastId s < 2147483647) :
    id = lastId s + 1 ∧ (addTask s stdin).1.taskCount = s.taskCount + 1 ∧
      (∀ i, i < s.taskCount → (addTask s stdin).1.tasks i = s.tasks i) ∧
      ((addTask s stdin).1.tasks s.taskCount).id = id ∧
      (addTask s stdin).1.ids = s.ids ++ [id] := by
  obtain ⟨-, hidv, description, hst⟩ := addTask_added_inv h
  have hid : id = lastId s + 1 := by
    rw [hidv]
    unfold lastId at hlo hhi ⊢
    by_cases hpos : s.taskCount > 0
    · simp only [hpos, if_true] at hlo hhi ⊢
      exact wrapInt_of_range (by omega) (by omega)
    · simp only [hpos, if_false]
      rfl
  rw [hst]
  refine ⟨hid, rfl, fun i hi => Function.update_noteq (by omega) _ _, by simp, ?_⟩
  rw [ids_push]

theorem idsIncreasing_lastId {s : State} {k : Int} (h : s.IdsIncreasing k) (hk : 0 ≤ k) :
    0 ≤ lastId s ∧ lastId s ≤ k ∧ ∀ i, i < s.taskCount → (s.tasks i).id ≤ lastId s := by
  unfold lastId
  by_cases hpos : s.taskCount > 0
  · simp only [hpos, if_true]
    have hl := h.1 (s.taskCount - 1) (by omega)
    refine ⟨by omega, hl.2, fun i hi => ?_⟩
    by_cases hil : i = s.taskCount - 1
    · rw [hil]
    · exact le_of_lt (h.2 i (s.taskCount - 1) (by omega) (by omega))
  · simp only [hpos, if_false]
    exact ⟨le_refl _, hk, fun i hi => by omega⟩

theorem idsIncreasing_step {s : State} {k : Int} (h : s.IdsIncreasing k) (hk : 0 ≤ k)
    (hmax : k < 2147483647) (op : Op) : (step s op).1.IdsIncreasing (k + 1) := by
  obtain ⟨hl0, hlk, hlast⟩ := idsIncreasing_lastId h hk
  cases op with
  | add stdin =>
    show (addTask s stdin).1.IdsIncreasing (k + 1)
    by_cases hs : ∃ id, (addTask s stdin).2 = Msg.added id
    · obtain ⟨id, hid⟩ := hs
      obtain ⟨e, hc, hold, hnew, -⟩ := addTask_added_id hid (by omega) (by omega)
      constructor
      · intro i hi
        rw [hc] at hi
        by_cases hin : i < s.taskCount
        · rw [hold i hin]
          have := h.1 i hin
          omega
        · have : i = s.taskCount := by omega
          rw [this, hnew]
          omega
      · intro i j hij hj
        rw [hc] at hj
        by_cases hjn : j < s.taskCount
        · rw [hold i (by omega), hold j hjn]
          exact h.2 i j hij hjn
        · have : j = s.taskCount := by omega
          rw [this, hnew, hold i (by omega)]
          have := hlast i (by omega)
          omega
    · have hs2 : ∀ id, (addTask s stdin).2 ≠ Msg.added id := fun id e => hs ⟨id, e⟩
      obtain ⟨hc, hold⟩ := addTask_not_added s stdin hs2
      constructor
      · intro i hi
        rw [hc] at hi
        rw [hold i hi]
        have := h.1 i hi
        omega
      · intro i j hij hj
        rw [hc] at hj
        rw [hold i (by omega), hold j hj]
        exact h.2 i j hij hj
  | complete input =>
    show (markTaskComplete s input).1.IdsIncreasing (k + 1)
    constructor
    · intro i hi
      rw [markTaskComplete_taskCount] at hi
      rw [markTaskComplete_id]
      have := h.1 i hi
      omega
    · intro i j hij hj
      rw [markTaskComplete_taskCount] at hj
      rw [markTaskComplete_id, markTaskComplete_id]
      exact h.2 i j hij hj
  | delete input =>
    show (deleteTask s input).1.IdsIncreasing (k + 1)
    rcases deleteTask_cases s input with e | ⟨d, hd, e⟩
    · rw [e]
      exact ⟨fun i hi => by have := h.1 i hi; omega, h.2⟩
    · rw [e]
      have hslot : ∀ j, j < s.taskCount - 1 →
          shiftLoop s.tasks d (s.taskCount - 1 - d) j = s.tasks (if d ≤ j then j + 1 else j) := by
        intro j hj
        rw [shiftLoop_apply]
        by_cases hdj : d ≤ j
        · rw [if_pos ⟨hdj, by omega⟩, if_pos hdj]
        · rw [if_neg (fun c => hdj c.1), if_neg hdj]
      constructor
      · intro i hi
        show 0 < (shiftLoop s.tasks d (s.taskCount - 1 - d) i).id ∧
          (shiftLoop s.tasks d (s.taskCount - 1 - d) i).id ≤ k + 1
        have hi2 : i < s.taskCount - 1 := hi
        rw [hslot i hi2]
        have := h.1 (if d ≤ i then i + 1 else i) (by split <;> omega)
        omega
      · intro i j hij hj
        show (shiftLoop s.tasks d (s.taskCount - 1 - d) i).id <
          (shiftLoop s.tasks d (s.taskCount - 1 - d) j).id
        have hj2 : j < s.taskCount - 1 := hj
        rw [hslot i (by omega), hslot j hj2]
        exact h.2 _ _ (by split <;> split <;> omega) (by split <;> omega)

theorem idsIncreasing_run (ops : List Op) :
    ∀ (s : State) (k : Int), s.IdsIncreasing k → 0 ≤ k → k + ops.length ≤ 2147483647 →
      (run s ops).IdsIncreasing (k + ops.length) := by
  induction ops with
  | nil =>
    intro s k h _ _
    simpa [run] using h
  | cons op ops ih =>
    intro s k h hk hlen
    have hl : ((op :: ops).length : Int) = (ops.length : Int) + 1 := by simp
    have := ih (step s op).1 (k + 1) (idsIncreasing_step h hk (by omega) op) (by omega) (by omega)
    have e : k + ((op :: ops).length : Int) = k + 1 + (ops.length : Int) := by omega
    rw [e]
    exact this

theorem idsIncreasing_init : State.init.IdsIncreasing 0 :=
  ⟨fun i hi => absurd hi (Nat.not_lt_zero i), fun _ j _ hj => absurd hj (Nat.not_lt_zero j)⟩

/-- The ids of a store reached from the empty store by at most 2147483647
operations are positive, bounded by the number of operations, and strictly
increasing by position. -/
theorem run_init_idsIncreasing (ops : List Op) (h : (ops.length : Int) ≤ 2147483647) :
    (run State.init ops).IdsIncreasing ops.length := by
  have := idsIncreasing_run ops State.init 0 idsIncreasing_init (le_refl _) (by omega)
  simpa using this

theorem idsIncreasing_pairwise {s : State} {k : Int} (h : s.IdsIncreasing k) :
    s.ids.Pairwise (fun a b => a < b) := by
  rw [ids_eq, List.pairwise_map]
  refine (List.pairwise_lt_range s.taskCount).imp_of_mem ?_
  intro a b _ hb hab
  exact h.2 a b hab (List.mem_range.1 hb)

/-! ## The id of the first Add after Load -/

theorem currentMaxIdLoop_ge_init (tasks : Nat → Task) (k : Nat) :
    ∀ (i : Nat) (m : Int), m ≤ currentMaxIdLoop tasks i k m := by
  induction k with
  | zero => intro i m; exact le_refl _
  | succ k ih =>
    intro i m
    rw [currentMaxIdLoop]
    refine le_trans ?_ (ih (i + 1) _)
    split <;> omega

theorem currentMaxIdLoop_ge (tasks : Nat → Task) (k : Nat) :
    ∀ (i : Nat) (m : Int) (j : Nat), i ≤ j → j < i + k →
      (tasks j).id ≤ currentMaxIdLoop tasks i k m := by
  induction k with
  | zero => intro i m j h1 h2; omega
  | succ k ih =>
    intro i m j h1 h2
    rw [currentMaxIdLoop]
    by_cases hji : j = i
    · subst hji
      refine le_trans ?_ (currentMaxIdLoop_ge_init tasks k (j + 1) _)
      split <;> omega
    · exact ih (i + 1) _ j (by omega) (by omega)

theorem le_currentMaxId {s : State} {x : Int} (h : x ∈ s.ids) : x ≤ currentMaxId s := by
  obtain ⟨i, hi, rfl⟩ := mem_ids.1 h
  exact currentMaxIdLoop_ge s.tasks s.taskCount 0 0 i (Nat.zero_le _) (by omega)

theorem currentMaxId_nonneg (s : State) : 0 ≤ currentMaxId s :=
  currentMaxIdLoop_ge_init s.tasks s.taskCount 0 0

/-- C14 as stated fails: Add, Add, Delete(2), Add from the empty store
assigns the id 2 twice. -/
theorem id_reused_after_delete :
    trace State.init
        [Op.add ['a', '\n'], Op.add ['b', '\n'], Op.delete (some 2), Op.add ['c', '\n']] =
      [Msg.added 1, Msg.added 2, Msg.deleted 2, Msg.added 2] ∧
    (run State.init
        [Op.add ['a', '\n'], Op.add ['b', '\n'], Op.delete (some 2), Op.add ['c', '\n']]).ids =
      [1, 2] := by
  decide

/-- C14, amended. In every sequence of Add, Complete and Delete operations
from the empty store (at most 2147483646 of them before the Add), the id
a successful Add assigns is greater than the id of every task in the store
at that time, so it differs from the id of every earlier Add whose task has
not been deleted, and the ids of the store stay pairwise distinct. -/
theorem addTask_id_not_in_store (pre : List Op) (stdin : List Char) (id : Int)
    (hlen : (pre.length : Int) ≤ 2147483646)
    (hadd : (step (run State.init pre) (Op.add stdin)).2 = Msg.added id) :
    (∀ x ∈ (run State.init pre).ids, x < id) ∧ id ∉ (run State.init pre).ids ∧
      (step (run State.init pre) (Op.add stdin)).1.ids = (run State.init pre).ids ++ [id] ∧
      (step (run State.init pre) (Op.add stdin)).1.ids.Nodup := by
  have hinv := run_init_idsIncreasing pre (by omega)
  obtain ⟨hl0, hlk, hlast⟩ := idsIncreasing_lastId hinv (Int.ofNat_nonneg _)
  have hadd2 : (addTask (run State.init pre) stdin).2 = Msg.added id := hadd
  obtain ⟨e, -, -, -, hids⟩ := addTask_added_id hadd2 (by omega) (by omega)
  have hlt : ∀ x ∈ (run State.init pre).ids, x < id := by
    intro x hx
    obtain ⟨i, hi, rfl⟩ := mem_ids.1 hx
    have := hlast i hi
    omega
  have hnot : id ∉ (run State.init pre).ids := fun h => lt_irrefl id (hlt id h)
  refine ⟨hlt, hnot, hids, ?_⟩
  show (addTask (run State.init pre) stdin).1.ids.Nodup
  rw [hids, List.nodup_append]
  refine ⟨((idsIncreasing_pairwise hinv).imp (fun h => ne_of_lt h)), by simp, ?_⟩
  intro x hx hy
  rw [List.mem_singleton.1 hy] at hx
  exact hnot hx

/-- The third Add after Add, Add, Delete(1): the id 3 is greater than the
id 2 left in the store. -/
theorem addTask_id_not_in_store_witness :
    (run State.init [Op.add ['a', '\n'], Op.add ['b', '\n'], Op.delete (some 1)]).ids = [2] ∧
      ∀ x ∈ (run State.init
          [Op.add ['a', '\n'], Op.add ['b', '\n'], Op.delete (some 1)]).ids, x < 3 :=
  ⟨by decide,
    (addTask_id_not_in_store [Op.add ['a', '\n'], Op.add ['b', '\n'], Op.delete (some 1)]
      ['c', '\n'] 3 (by decide) (by decide)).1⟩

/-! ## Distinct ids -/

/-- C16 as stated fails for Add: the store Load builds from the records with
ids 2 then 1 has distinct ids, and a successful Add gives it the ids 2, 1, 2. -/
theorem addTask_breaks_distinct_ids :
    (loadTasks State.init
        (some ['2', ',', '0', ',', 'a', '\n', '1', ',', '0', ',', 'b', '\n'])).1.ids.Nodup ∧
      (addTask (loadTasks State.init
        (some ['2', ',', '0', ',', 'a', '\n', '1', ',', '0', ',', 'b', '\n'])).1
          ['c', '\n']).2 = Msg.added 2 ∧
      (addTask (loadTasks State.init
        (some ['2', ',', '0', ',', 'a', '\n', '1', ',', '0', ',', 'b', '\n'])).1
          ['c', '\n']).1.ids = [2, 1, 2] ∧
      ¬ (addTask (loadTasks State.init
        (some ['2', ',', '0', ',', 'a', '\n', '1', ',', '0', ',', 'b', '\n'])).1
          ['c', '\n']).1.ids.Nodup := by
  decide

/-- C16, amended. On a store whose ids are pairwise distinct, Complete and
Delete, whatever their input, leave the ids pairwise distinct. A successful
Add appends its id to the ids of the store; they stay pairwise distinct
exactly when that id is not yet in the store, which is the case whenever the
last task carries the largest id and that id is not the largest `int`. -/
theorem ids_nodup_preserved (s : State) (h : s.ids.Nodup) :
    (∀ input, (markTaskComplete s input).1.ids = s.ids ∧
        (markTaskComplete s input).1.ids.Nodup) ∧
      (∀ input, (deleteTask s input).1.ids.Nodup) ∧
      (∀ stdin id, (addTask s stdin).2 = Msg.added id →
        ((addTask s stdin).1.ids.drop s.taskCount = [id]) ∧
        ((addTask s stdin).1.ids.Nodup ↔ id ∉ s.ids) ∧
        ((∀ x ∈ s.ids, x ≤ lastId s) → -2147483648 ≤ lastId s → lastId s < 2147483647 →
          (addTask s stdin).1.ids.Nodup)) := by
  refine ⟨?_, ?_, ?_⟩
  · intro input
    rw [markTaskComplete_ids]
    exact ⟨rfl, h⟩
  · intro input
    exact h.sublist (deleteTask_ids_sublist s input)
  · intro stdin id hadd
    obtain ⟨-, -, description, hst⟩ := addTask_added_inv hadd
    have hids : (addTask s stdin).1.ids = s.ids ++ [id] := by
      rw [hst, ids_push]
    have hlen : s.ids.length = s.taskCount := by simp [State.ids, view_length]
    have hiff : (addTask s stdin).1.ids.Nodup ↔ id ∉ s.ids := by
      rw [hids, List.nodup_append]
      constructor
      · intro hn hmem
        exact hn.2.2 hmem (List.mem_singleton.2 rfl)
      · intro hn
        refine ⟨h, by simp, ?_⟩
        intro x hx hy
        rw [List.mem_singleton.1 hy] at hx
        exact hn hx
    refine ⟨by rw [hids, ← hlen, List.drop_left], hiff, ?_⟩
    intro hmax hlo hhi
    obtain ⟨e, -⟩ := addTask_added_id hadd hlo hhi
    rw [hiff]
    intro hmem
    have := hmax id hmem
    omega

/-- The sample store of ids 1, 2, 3 keeps distinct ids under Delete. -/
theorem ids_nodup_preserved_witness :
    sampleStore.ids.Nodup ∧ (deleteTask sampleStore (some 2)).1.ids.Nodup :=
  ⟨by decide, (ids_nodup_preserved sampleStore (by decide)).2.1 (some 2)⟩

/-! ## Reachable stores -/

theorem run_append (a b : List Op) : ∀ s : State, run s (a ++ b) = run (run s a) b := by
  induction a with
  | nil => intro s; rfl
  | cons op a ih =>
    intro s
    exact ih (step s op).1

theorem run_add (s : State) (stdin : List Char) :
    run s [Op.add stdin] = (addTask s stdin).1 := rfl

theorem run_add_delete (s : State) (stdin : List Char) (input : Option Int) :
    run s [Op.add stdin, Op.delete input] = (deleteTask (addTask s stdin).1 input).1 := rfl

/-- `addTask()` on the input line `a` when the store is not full. -/
theorem addTask_line_a (s : State) (h : s.taskCount < MAX_TASKS) :
    (addTask s ['a', '\n']).1 =
      { tasks := Function.update s.tasks s.taskCount
          { id := if s.taskCount > 0 then wrapInt ((s.tasks (s.taskCount - 1)).id + 1) else 1,
            description := ['a'], completed := false },
        taskCount := s.taskCount + 1 } := by
  have hnot : ¬ (s.taskCount ≥ MAX_TASKS) := by omega
  have hfg : fgets MAX_TASK_LEN ['a', '\n'] = some (['a', '\n'], []) := by decide
  have hstrip : stripNewline ['a', '\n'] = ['a'] := by decide
  unfold addTask
  rw [if_neg hnot, hfg]
  simp only [hstrip]
  rfl

/-- One round of `churn` on a store that holds one task with id `v`: Add
appends the id `wrapInt (v + 1)`, Delete of `v` leaves only the new task. -/
theorem churn_round (s : State) (v : Int) (hc : s.taskCount = 1) (hid : (s.tasks 0).id = v) :
    (deleteTask (addTask s ['a', '\n']).1 (some v)).1.taskCount = 1 ∧
      ((deleteTask (addTask s ['a', '\n']).1 (some v)).1.tasks 0).id = wrapInt (v + 1) ∧
      (addTask s ['a', '\n']).1.ids = [v, wrapInt (v + 1)] := by
  have hadd := addTask_line_a s (by rw [hc]; decide)
  obtain ⟨s1, hs1⟩ : ∃ s1, s1 = (addTask s ['a', '\n']).1 := ⟨_, rfl⟩
  rw [← hs1] at hadd ⊢
  have h1c : s1.taskCount = 2 := by rw [hadd, hc]
  have h1t0 : (s1.tasks 0).id = v := by
    rw [hadd, hc]
    simp [Function.update_apply, hid]
  have h1t1 : (s1.tasks 1).id = wrapInt (v + 1) := by
    rw [hadd, hc]
    simp [hid]
  have hfind : findLoop s1.tasks v 0 s1.taskCount = some 0 := by
    rw [h1c]
    show (if (s1.tasks 0).id = v then some 0 else _) = some 0
    rw [if_pos h1t0]
  have hdel : (deleteTask s1 (some v)).1 =
      { tasks := shiftLoop s1.tasks 0 (s1.taskCount - 1 - 0), taskCount := s1.taskCount - 1 } := by
    have hne : s1.taskCount ≠ 0 := by rw [h1c]; decide
    unfold deleteTask
    rw [if_neg hne]
    simp only [hfind]
  refine ⟨?_, ?_, ?_⟩
  · rw [hdel]
    show s1.taskCount - 1 = 1
    rw [h1c]
  · rw [hdel]
    show (shiftLoop s1.tasks 0 (s1.taskCount - 1 - 0) 0).id = _
    rw [shiftLoop_apply, if_pos (by rw [h1c]; decide)]
    exact h1t1
  · rw [ids_eq, h1c]
    show [(s1.tasks 0).id, (s1.tasks 1).id] = _
    rw [h1t0, h1t1]

/-- After `churn m` the store holds one task, with id `m + 1`. -/
theorem run_churn (m : Nat) (h : (m : Int) + 1 ≤ 2147483647) :
    (run State.init (churn m)).taskCount = 1 ∧
      ((run State.init (churn m)).tasks 0).id = (m : Int) + 1 := by
  induction m with
  | zero =>
    constructor
    · rfl
    · decide
  | succ m ih =>
    have hm : (m : Int) + 2 ≤ 2147483647 := by
      push_cast at h
      omega
    obtain ⟨hc, hid⟩ := ih (by omega)
    have hrun : run State.init (churn (m + 1)) =
        (deleteTask (addTask (run State.init (churn m)) ['a', '\n']).1
          (some ((m : Int) + 1))).1 := by
      show run State.init (churn m ++ [Op.add ['a', '\n'], Op.delete (some ((m : Int) + 1))]) = _
      rw [run_append, run_add_delete]
    obtain ⟨h1, h2, -⟩ := churn_round (run State.init (churn m)) ((m : Int) + 1) hc hid
    rw [hrun]
    refine ⟨h1, ?_⟩
    rw [h2, wrapInt_of_range (by omega) (by omega)]
    push_cast
    omega

/-- C20 as stated fails once the ids reach the largest `int`: the sequence
`churn 2147483646` (Add, then 2147483646 rounds of Add and Delete of the
older task) leaves one task with id 2147483647, and the next Add assigns
`tasks[taskCount - 1].id + 1`, which wraps to -2147483648: the ids are
neither all positive nor increasing. -/
theorem reachable_ids_overflow :
    (run State.init (churn 2147483646)).taskCount = 1 ∧
      ((run State.init (churn 2147483646)).tasks 0).id = 2147483647 ∧
      (run State.init (churn 2147483646 ++ [Op.add ['a', '\n']])).ids =
        [2147483647, -2147483648] := by
  obtain ⟨hc, hid⟩ := run_churn 2147483646 (by norm_num)
  have hid2 : ((run State.init (churn 2147483646)).tasks 0).id = 2147483647 := by
    rw [hid]
    norm_num
  refine ⟨hc, hid2, ?_⟩
  obtain ⟨-, -, h3⟩ := churn_round (run State.init (churn 2147483646)) 2147483647 hc hid2
  rw [run_append, run_add, h3]
  have hw : wrapInt (2147483647 + 1) = -2147483648 := by
    unfold wrapInt
    omega
  rw [hw]

/-- C20, amended. In every store reached from the empty store by at most
2147483646 Add, Complete and Delete operations, the ids are positive and
strictly increasing by position, so the last task holds the largest id, and
the id a successful next Add assigns, the last id + 1 or 1 on the empty
store, is greater than every id in the store. -/
theorem reachable_ids_increasing (ops : List Op) (h : (ops.length : Int) ≤ 2147483646) :
    (∀ x ∈ (run State.init ops).ids, 0 < x) ∧
      (run State.init ops).ids.Pairwise (fun a b => a < b) ∧
      (∀ x ∈ (run State.init ops).ids, x ≤ lastId (run State.init ops)) ∧
      (∀ stdin id, (addTask (run State.init ops) stdin).2 = Msg.added id →
        id = lastId (run State.init ops) + 1 ∧ ∀ x ∈ (run State.init ops).ids, x < id) := by
  have hinv := run_init_idsIncreasing ops (by omega)
  obtain ⟨hl0, hlk, hlast⟩ := idsIncreasing_lastId hinv (Int.ofNat_nonneg _)
  have hle : ∀ x ∈ (run State.init ops).ids, x ≤ lastId (run State.init ops) := by
    intro x hx
    obtain ⟨i, hi, rfl⟩ := mem_ids.1 hx
    exact hlast i hi
  refine ⟨?_, idsIncreasing_pairwise hinv, hle, ?_⟩
  · intro x hx
    obtain ⟨i, hi, rfl⟩ := mem_ids.1 hx
    exact (hinv.1 i hi).1
  · intro stdin id hadd
    obtain ⟨e, -⟩ := addTask_added_id hadd (by omega) (by omega)
    refine ⟨e, fun x hx => ?_⟩
    have := hle x hx
    omega

/-- The store after Add, Add, Complete(1), Delete(1), Add holds the ids 2, 3. -/
theorem reachable_ids_increasing_witness :
    (run State.init [Op.add ['a', '\n'], Op.add ['b', '\n'], Op.complete (some 1),
        Op.delete (some 1), Op.add ['c', '\n']]).ids = [2, 3] ∧
      (run State.init [Op.add ['a', '\n'], Op.add ['b', '\n'], Op.complete (some 1),
        Op.delete (some 1), Op.add ['c', '\n']]).ids.Pairwise (fun a b => a < b) :=
  ⟨by decide,
    (reachable_ids_increasing [Op.add ['a', '\n'], Op.add ['b', '\n'], Op.complete (some 1),
      Op.delete (some 1), Op.add ['c', '\n']] (by decide)).2.1⟩

/-! ## Add and the NUL character -/

/-- C6 as stated fails for a text that holds a NUL character: the string
functions stop at it. On the sample store of three tasks, the line of the
two characters NUL, `a` is non-empty, has no line terminator inside and is
shorter than 255 characters, yet Add answers with the empty-description
message and appends nothing; the line `ab`, NUL, `cd` is accepted, but the
description stored is `ab`, not the text. -/
theorem addTask_text_with_NUL :
    sampleStore.taskCount < MAX_TASKS ∧
      [NUL, 'a'] ≠ [] ∧ [NUL, 'a'].length ≤ 255 ∧ '\n' ∉ [NUL, 'a'] ∧
      (addTask sampleStore ([NUL, 'a'] ++ '\n' :: [])).2 = Msg.emptyDescription ∧
      (addTask sampleStore ([NUL, 'a'] ++ '\n' :: [])).1.view = sampleStore.view ∧
      (addTask sampleStore (['a', 'b', NUL, 'c', 'd'] ++ '\n' :: [])).2 = Msg.added 4 ∧
      (addTask sampleStore (['a', 'b', NUL, 'c', 'd'] ++ '\n' :: [])).1.view =
        sampleStore.view ++ [{ id := 4, description := ['a', 'b'], completed := false }] := by
  decide

/-! ## The store Load builds, in terms of the file content -/

end Todo
